import Mathlib

/-!
The repository configuration parser of pkgfile (`src/repo.c`).

A shallow embedding of `repo.c`.  C strings are lists of characters (the
terminating NUL is the end of the list), the by-reference arguments of
`parse_one_file` are threaded explicitly, and the file system and the libc
`glob` facility are parameters.  Include recursion is bounded by a fuel
argument; reads outside an array are reported as a fault.
-/

namespace Pkgfile

deriving instance DecidableEq for Except

/-! ## Repository records -/

/-- Record `struct repo_t`: `servercount` is the length of `servers`. -/
structure repo_t where
  name : List Char
  servers : List (List Char)
  err : Int
deriving DecidableEq, Repr

/-- Function `repo_new`: a record with the given name, no servers, `err = 1`
(allocation is taken to succeed). -/
def repo_new (reponame : List Char) : repo_t :=
  { name := reponame, servers := [], err := 1 }

/-- Function `repo_add_server`: on a null record return 1, otherwise store a
copy of `server` in slot `servercount` and return 0. -/
def repo_add_server (repo : Option repo_t) (server : List Char) : Option repo_t × Int :=
  match repo with
  | none => (none, 1)
  | some r => (some { r with servers := r.servers ++ [server] }, 0)

/-! ## String helpers -/

/-- The libc `isspace` in the C locale. -/
def isspace (c : Char) : Bool :=
  c == ' ' || c == '\t' || c == '\n' || c == '\x0b' || c == '\x0c' || c == '\r'

/-- Conversion of a pointer difference to `size_t` (64 bit). -/
def size_t_of (d : Int) : Nat := (d % 18446744073709551616).toNat

/-- Function `strtrim`: the trimmed string left in the buffer and the returned
value.  `left` is the number of leading whitespace characters skipped; the
string is moved to the front of the buffer, but the value returned is
`right - left` with `left` still pointing at the old start of the text. -/
def strtrim (str : List Char) : List Char × Nat :=
  if str = [] then (str, 0)
  else
    let left := (str.takeWhile isspace).length
    let str1 := str.drop left
    if str1 = [] then (str1, 0)
    else
      let str2 := str1.rdropWhile isspace
      (str2, size_t_of ((str2.length : Int) - (left : Int)))

/-- Function `split_keyval` with separator `=`: the text before the first
separator (left in `line`) and the text after it. -/
def split_keyval (line : List Char) : List Char × List Char :=
  (line.takeWhile (fun c => c != '='), (line.dropWhile (fun c => c != '=')).drop 1)

/-- The successive buffers `fgets(line, size, fp)` delivers for a stream:
each holds at most `size - 1` characters and ends after a newline. -/
def fgets_all (size : Nat) : List Char → List Char → List (List Char)
  | cur, [] => if cur = [] then [] else [cur]
  | cur, c :: rest =>
    if c = '\n' ∨ cur.length + 2 ≥ size then (cur ++ [c]) :: fgets_all size [] rest
    else fgets_all size (cur ++ [c]) rest

/-- The C string held by a buffer: its characters up to the first NUL. -/
def cstr (buf : List Char) : List Char := buf.takeWhile (fun c => c != '\x00')

/-! ## Parser state -/

/-- Abnormal ends of an execution: the recursion bound of the model is
reached, `line[len - 1]` is read outside the line buffer, or
`active_repos[*repocount - 1]` is read with `*repocount = 0`. -/
inductive Fault where
  | out_of_fuel
  | line_out_of_bounds
  | repos_out_of_bounds
deriving DecidableEq, Repr

/-- The arguments `section`, `repos` and `repocount` that `parse_one_file`
receives by reference.  `repos` is `none` for the null pointer; `*repocount`
is the number of array slots written, the length of the list. -/
structure shared where
  sect : Option (List Char)
  repos : Option (List repo_t)
deriving DecidableEq, Repr

/-- The state of the line loop of `parse_one_file`: the shared arguments
(`active_repos` is the local copy of `*repos`) and the locals `in_options`
and `r`. -/
structure loop_state where
  sect : Option (List Char)
  active_repos : Option (List repo_t)
  in_options : Bool
  r : Int
deriving DecidableEq, Repr

/-- The number of records, `*repocount`. -/
def repocount (repos : Option (List repo_t)) : Nat := (repos.getD []).length

/-- The file system and glob facility the parser runs against: `fopen`
gives the content of a file or the `errno` of the failure, `glob` the
expansion of a pattern or `none` when `glob` returns non-zero. -/
structure Env where
  fopen : List Char → Except Nat (List Char)
  glob : List Char → Option (List (List Char))

/-- The constant `ENOMEM`. -/
def ENOMEM : Int := 12

/-- The loop of `parse_include` over the expanded paths; the value returned
by each `parse_one_file` call is dropped. -/
def parse_include_loop (pf : List Char → shared → Except Fault (Int × shared)) :
    List (List Char) → shared → Except Fault shared
  | [], sh => .ok sh
  | p :: ps, sh =>
    match pf p sh with
    | .error f => .error f
    | .ok (_, sh1) => parse_include_loop pf ps sh1

/-- Function `parse_include`, over the recursive call `pf`. -/
def parse_include (glob : List Char → Option (List (List Char)))
    (pf : List Char → shared → Except Fault (Int × shared))
    (pattern : List Char) (sh : shared) : Except Fault (Int × shared) :=
  match glob pattern with
  | none => .ok (-ENOMEM, sh)
  | some paths =>
    match parse_include_loop pf paths sh with
    | .error f => .error f
    | .ok sh1 => .ok (0, sh1)

/-- The section-header step of the loop body (lines 168-180) on the trimmed
line and the value `len` returned by `strtrim`.  `len` is at most the
length of the line or has wrapped around, so an index `len - 1` outside
the string is outside the 4096-byte buffer. -/
def header_step (line : List Char) (len : Nat) (st : loop_state) : Except Fault loop_state :=
  if line.head? = some '[' then
    match line.get? (len - 1) with
    | none => .error .line_out_of_bounds
    | some c =>
      if c = ']' then
        let sect := (line.drop 1).take (len - 2)
        if len - 2 = 7 ∧ sect.take 7 = ['o', 'p', 't', 'i', 'o', 'n', 's'] then
          .ok { st with sect := some sect, in_options := true }
        else
          .ok { st with sect := some sect, in_options := false,
                        active_repos := some (st.active_repos.getD [] ++ [repo_new sect]) }
      else .ok st
  else .ok st

/-- The directive step of the loop body (lines 182-205).  The boolean is
true when the loop is left by `break`. -/
def directive_step (inc : List Char → shared → Except Fault (Int × shared))
    (line : List Char) (st : loop_state) : Except Fault (Bool × loop_state) :=
  if '=' ∈ line then
    let key := (strtrim (split_keyval line).1).1
    let val := (strtrim (split_keyval line).2).1
    if key = ['S', 'e', 'r', 'v', 'e', 'r'] then
      if st.sect = none then .ok (false, st)
      else if st.in_options then .ok (false, st)
      else
        match st.active_repos with
        | none => .error .repos_out_of_bounds
        | some repos =>
          match repos.getLast? with
          | none => .error .repos_out_of_bounds
          | some repo =>
            let res := repo_add_server (some repo) val
            let st1 := { st with active_repos := some (repos.dropLast ++ res.1.toList),
                                 r := res.2 }
            .ok (decide (res.2 < 0), st1)
    else if key = ['I', 'n', 'c', 'l', 'u', 'd', 'e'] then
      match inc val ⟨st.sect, st.active_repos⟩ with
      | .error f => .error f
      | .ok (_, sh) => .ok (false, { st with sect := sh.sect, active_repos := sh.repos })
    else .ok (false, st)
  else .ok (false, st)

/-- One iteration of the loop of `parse_one_file` on the buffer `buf` read
by `fgets`. -/
def process_line (inc : List Char → shared → Except Fault (Int × shared))
    (buf : List Char) (st : loop_state) : Except Fault (Bool × loop_state) :=
  let t := strtrim ((cstr buf).takeWhile (fun c => c != '#'))
  if t.2 = 0 then .ok (false, st)
  else
    match header_step t.1 t.2 st with
    | .error f => .error f
    | .ok st1 => directive_step inc t.1 st1

/-- The `while(fgets(...))` loop of `parse_one_file`. -/
def parse_lines (inc : List Char → shared → Except Fault (Int × shared)) :
    List (List Char) → loop_state → Except Fault loop_state
  | [], st => .ok st
  | buf :: rest, st =>
    match process_line inc buf st with
    | .error f => .error f
    | .ok (true, st1) => .ok st1
    | .ok (false, st1) => parse_lines inc rest st1

/-- Function `parse_one_file`.  `fuel` bounds the depth of Include
recursion; a file that cannot be opened returns `-errno` at once. -/
def parse_one_file (env : Env) : Nat → List Char → shared → Except Fault (Int × shared)
  | fuel, filename, sh =>
    match env.fopen filename with
    | .error errno => .ok (-(errno : Int), sh)
    | .ok content =>
      match fuel with
      | 0 => .error .out_of_fuel
      | n + 1 =>
        match parse_lines (parse_include env.glob (parse_one_file env n))
            (fgets_all 4096 [] content) ⟨sh.sect, sh.repos, false, 0⟩ with
        | .error f => .error f
        | .ok st => .ok (st.r, ⟨st.sect, st.active_repos⟩)

/-- Function `find_active_repos`: the pointer returned (`none` is NULL) and
the value left in `*repocount`. -/
def find_active_repos (env : Env) (fuel : Nat) (filename : List Char) :
    Except Fault (Option (List repo_t) × Nat) :=
  match parse_one_file env fuel filename ⟨none, none⟩ with
  | .error f => .error f
  | .ok (r, sh) => if r < 0 then .ok (none, repocount sh.repos) else .ok (sh.repos, repocount sh.repos)

/-! ## Concrete environments -/

/-- A file system given by a table of paths and contents; any other path
fails with `ENOENT` (2), and a pattern expands by the table `globs`, or to
itself when it is not listed (`GLOB_NOCHECK`). -/
def mkEnv (files : List (String × String)) (globs : List (String × List String)) : Env where
  fopen := fun p =>
    match files.find? (fun f => f.1.toList = p) with
    | some f => .ok f.2.toList
    | none => .error 2
  glob := fun p =>
    match globs.find? (fun g => g.1.toList = p) with
    | some g => some (g.2.map String.toList)
    | none => some [p]

/-! ## Line classification -/

/-- The text the loop body works on: the C string of the buffer with the
comment removed, trimmed. -/
def trimmed_line (buf : List Char) : List Char :=
  (strtrim ((cstr buf).takeWhile (fun c => c != '#'))).1

/-- The trimmed key of a line that holds `=`: the text before the first
`=` of the trimmed line. -/
def directive_key (buf : List Char) : Option (List Char) :=
  if '=' ∈ trimmed_line buf then some (strtrim (split_keyval (trimmed_line buf)).1).1 else none

/-- The trimmed value of a line that holds `=`: the text after the first
`=` of the trimmed line. -/
def directive_val (buf : List Char) : Option (List Char) :=
  if '=' ∈ trimmed_line buf then some (strtrim (split_keyval (trimmed_line buf)).2).1 else none

/-- The section name of a line the loop body takes for a section header:
the text is not skipped, starts with `[`, and `line[len - 1]` is `]`. -/
def header_name (buf : List Char) : Option (List Char) :=
  let t := strtrim ((cstr buf).takeWhile (fun c => c != '#'))
  if t.2 ≠ 0 ∧ t.1.head? = some '[' ∧ t.1.get? (t.2 - 1) = some ']' then
    some ((t.1.drop 1).take (t.2 - 2))
  else none

/-- The include graph descends along `rank`: every file that opens and is
named by the expansion of an Include line of a file that opens has a
smaller rank than the including file. -/
def includes_descend (env : Env) (rank : List Char → Nat) : Prop :=
  ∀ f content, env.fopen f = .ok content →
    ∀ buf ∈ fgets_all 4096 [] content,
      directive_key buf = some ['I', 'n', 'c', 'l', 'u', 'd', 'e'] →
      ∀ val, directive_val buf = some val →
        ∀ paths, env.glob val = some paths →
          ∀ q ∈ paths, (∃ c, env.fopen q = .ok c) → rank q < rank f

/-! ## Serialization and well-formed records -/

/-- The line `Server = s` of a serialized record. -/
def server_line (s : List Char) : List Char :=
  ['S', 'e', 'r', 'v', 'e', 'r', ' ', '=', ' '] ++ s ++ ['\n']

/-- The line `[name]` of a serialized record. -/
def header_line (name : List Char) : List Char :=
  '[' :: (name ++ [']', '\n'])

/-- The lines written for one record: its header, then one `Server` line
for each server, in order. -/
def record_lines (r : repo_t) : List (List Char) :=
  header_line r.name :: r.servers.map server_line

/-- The lines written for a record list, in order. -/
def serialize_lines (rs : List repo_t) : List (List Char) :=
  rs.flatMap record_lines

/-- The content of the file a record list is written to. -/
def serialize (rs : List repo_t) : List Char :=
  (serialize_lines rs).flatten

/-- A text without newline, `#` and NUL. -/
def clean_text (t : List Char) : Prop :=
  '\n' ∉ t ∧ '#' ∉ t ∧ '\x00' ∉ t

/-- A text without leading and trailing whitespace. -/
def trimmed (s : List Char) : Prop :=
  s.dropWhile isspace = s ∧ s.rdropWhile isspace = s

/-- A record as the parser builds it: status flag 1, a clean name other
than `options`, clean and trimmed servers. -/
def good_repo (r : repo_t) : Prop :=
  r.err = 1 ∧ r.name ≠ ['o', 'p', 't', 'i', 'o', 'n', 's'] ∧ clean_text r.name ∧
  ∀ s ∈ r.servers, clean_text s ∧ trimmed s

/-- A record array as the parser builds it: null or non-empty, with good
records. -/
def good_repos (rs : Option (List repo_t)) : Prop :=
  rs ≠ some [] ∧ ∀ r ∈ rs.getD [], good_repo r

/-- A file system with the single file `path`; patterns expand to
themselves. -/
def fileEnv (path content : List Char) : Env where
  fopen := fun p => if p = path then .ok content else .error 2
  glob := fun p => some [p]

/-- The value `len` the loop body gets from `strtrim` for a buffer. -/
def line_len (buf : List Char) : Nat :=
  (strtrim ((cstr buf).takeWhile (fun c => c != '#'))).2

/-- One loop iteration in the form of the specification, steps c and d:
a line that passes the header test has the header effect only, a line
that does not is handled as a directive (else-if), where the code falls
through from the header branch to the directive branch. -/
def process_line_else_if (inc : List Char → shared → Except Fault (Int × shared))
    (buf : List Char) (st : loop_state) : Except Fault (Bool × loop_state) :=
  let t := strtrim ((cstr buf).takeWhile (fun c => c != '#'))
  if t.2 = 0 then .ok (false, st)
  else if t.1.head? = some '[' then
    match t.1.get? (t.2 - 1) with
    | none => .error .line_out_of_bounds
    | some c =>
      if c = ']' then
        match header_step t.1 t.2 st with
        | .error f => .error f
        | .ok st1 => .ok (false, st1)
      else directive_step inc t.1 st
  else directive_step inc t.1 st

/-- The record list `new` arises from `old` by changes at the tail: `old`
is empty, or `new` is `old` with servers appended to its last record,
followed by further records. -/
def tail_extends (old new : List repo_t) : Prop :=
  old = [] ∨ ∃ init last extra more, old = init ++ [last] ∧
    new = init ++ [{ last with servers := last.servers ++ extra }] ++ more

/-- The files of `C` lie on include cycles: each opens and holds an
Include line that passes the emptiness check and whose expansion names a
file of `C`. -/
def include_cycle (env : Env) (C : List Char → Prop) : Prop :=
  ∀ f, C f → ∃ content, env.fopen f = .ok content ∧
    ∃ buf ∈ fgets_all 4096 [] content, line_len buf ≠ 0 ∧
      directive_key buf = some ['I', 'n', 'c', 'l', 'u', 'd', 'e'] ∧
      ∃ val paths, directive_val buf = some val ∧ env.glob val = some paths ∧
        ∃ g ∈ paths, C g

/-- A line that is not indented: its comment-stripped text is blank or
starts with a character that is no whitespace. -/
def not_indented (buf : List Char) : Bool :=
  (((cstr buf).takeWhile (fun c => c != '#')).dropWhile isspace).isEmpty ||
  (((cstr buf).takeWhile (fun c => c != '#')).takeWhile isspace).isEmpty

/-- The section header of the specification: a line whose trimmed text
starts with `[` and ends with `]` is a section header, and its name is
the text between the two brackets. -/
def section_header (buf : List Char) : Option (List Char) :=
  if (trimmed_line buf).head? = some '[' ∧ (trimmed_line buf).getLast? = some ']' then
    some ((trimmed_line buf).drop 1).dropLast
  else none

/-! ## Evaluations on concrete configurations -/

/-- C1: the root file ` [core]` (one leading blank) holds a line that after
comment removal and trimming is the header `[core]`, yet `strtrim` returns
5 instead of 6, `line[len - 1]` is `e`, and no record is created. -/
theorem leading_blank_header_lost (fuel : Nat) :
    (strtrim ((cstr " [core]\n".toList).takeWhile (fun c => c != '#'))) = ("[core]".toList, 5) ∧
    find_active_repos (mkEnv [("r", " [core]\n")] []) (fuel + 1) "r".toList = .ok (none, 0) :=
  ⟨rfl, rfl⟩

/-- The scenario of C2: two sections, the servers go to the section above
them. -/
theorem two_sections_scenario (fuel : Nat) :
    find_active_repos
      (mkEnv [("r", "[core]\nServer = http://a\n[extra]\nServer = http://b\nServer = http://c\n")] [])
      (fuel + 1) "r".toList
    = .ok (some [⟨"core".toList, ["http://a".toList], 1⟩,
                 ⟨"extra".toList, ["http://b".toList, "http://c".toList], 1⟩], 2) :=
  rfl

/-- C2: the root file enters `[options]` and includes a file holding the
header `[extra]`; the Server line after the Include is met while the last
header seen is `[extra]`, but the root call's `in_options` is still 1 and
the line is rejected: `extra` keeps an empty server list. -/
theorem server_after_include_rejected (fuel : Nat) :
    find_active_repos
      (mkEnv [("r", "[options]\nInclude = sub\nServer = http://x\n"), ("sub", "[extra]\n")] [])
      (fuel + 2) "r".toList
    = .ok (some [⟨"extra".toList, [], 1⟩], 1) :=
  rfl

/-- The scenario of C3: within one file a Server line under `[options]` is
rejected. -/
theorem options_scenario (fuel : Nat) :
    find_active_repos
      (mkEnv [("r", "[options]\nServer = http://x\n[core]\nServer = http://a\n")] [])
      (fuel + 1) "r".toList
    = .ok (some [⟨"core".toList, ["http://a".toList], 1⟩], 1) :=
  rfl

/-- C3: a Server line in a file included under `[options]` is met while the
current section is `options`, but the included file's own `in_options`
starts at 0: the line is accepted and lands in `core`. -/
theorem server_in_included_options_accepted (fuel : Nat) :
    find_active_repos
      (mkEnv [("r", "[core]\n[options]\nInclude = sub\n"), ("sub", "Server = http://x\n")] [])
      (fuel + 2) "r".toList
    = .ok (some [⟨"core".toList, ["http://x".toList], 1⟩], 1) :=
  rfl

/-- The scenario of C4: the records of the included files appear in glob
order at the place of the Include line. -/
theorem include_scenario (fuel : Nat) :
    find_active_repos
      (mkEnv [("r", "[x]\nInclude = sub/*.conf\n[y]\n"),
              ("sub/a.conf", "[a]\nServer=1\n"), ("sub/b.conf", "[b]\nServer=2\n")]
             [("sub/*.conf", ["sub/a.conf", "sub/b.conf"])])
      (fuel + 2) "r".toList
    = .ok (some [⟨"x".toList, [], 1⟩, ⟨"a".toList, ["1".toList], 1⟩,
                 ⟨"b".toList, ["2".toList], 1⟩, ⟨"y".toList, [], 1⟩], 4) :=
  rfl

/-- C4: with the Include line the server of the included file is appended
to `core`; with the included line put in its place it is rejected, so the
two parses return different lists. -/
theorem include_differs_from_inlining (fuel : Nat) :
    find_active_repos
      (mkEnv [("r", "[core]\n[options]\nInclude = sub\n"), ("sub", "Server = 1\n")] [])
      (fuel + 2) "r".toList
    = .ok (some [⟨"core".toList, ["1".toList], 1⟩], 1) ∧
    find_active_repos
      (mkEnv [("r", "[core]\n[options]\nServer = 1\n"), ("sub", "Server = 1\n")] [])
      (fuel + 2) "r".toList
    = .ok (some [⟨"core".toList, [], 1⟩], 1) :=
  ⟨rfl, rfl⟩

/-- The scenario of C5: the commented, padded line and the bare line have
the same effect in every state with a current section outside `options`. -/
theorem padded_server_scenario (inc : List Char → shared → Except Fault (Int × shared))
    (st : loop_state) :
    process_line inc "  Server = x # comment  \n".toList st
    = process_line inc "Server=x\n".toList st :=
  rfl

/-- C5: in every state the line ` [a]` (one leading blank) is no header and
changes nothing, while its trimmed form `[a]` creates the record `a`. -/
theorem leading_blank_changes_line (inc : List Char → shared → Except Fault (Int × shared))
    (st : loop_state) :
    process_line inc " [a]\n".toList st = .ok (false, st) ∧
    process_line inc "[a]\n".toList st
      = .ok (false, { st with sect := some "a".toList, in_options := false,
                              active_repos := some (st.active_repos.getD [] ++ [repo_new "a".toList]) }) ∧
    process_line inc " [a]\n".toList st ≠ process_line inc "[a]\n".toList st := by
  have h1 : process_line inc " [a]\n".toList st = .ok (false, st) := rfl
  have h2 : process_line inc "[a]\n".toList st
      = .ok (false, { st with sect := some "a".toList, in_options := false,
                              active_repos := some (st.active_repos.getD [] ++ [repo_new "a".toList]) }) := rfl
  refine ⟨h1, h2, ?_⟩
  rw [h1, h2]
  intro h
  injection h with h
  injection h with _ h
  have h3 := congrArg (fun s => (s.active_repos.getD []).length) h
  simp at h3

/-- C10: the root file enters `[options]` and includes a file holding a
Server line; the included call has a current section, `in_options = 0`
and no record, so `active_repos[*repocount - 1]` is read with
`*repocount = 0`. -/
theorem append_without_record (fuel : Nat) :
    find_active_repos
      (mkEnv [("r", "[options]\nInclude = sub\n"), ("sub", "Server = x\n")] [])
      (fuel + 2) "r".toList
    = .error .repos_out_of_bounds :=
  rfl

/-! ## Trimming -/

theorem rdropWhile_cons_of_neg {α : Type} (p : α → Bool) (a : α) (l : List α) (h : ¬ p a) :
    List.rdropWhile p (a :: l) = a :: List.rdropWhile p l := by
  induction l using List.reverseRecOn with
  | nil => simp [List.rdropWhile_singleton, h]
  | append_singleton l b ih =>
    rw [← List.cons_append]
    by_cases hb : p b
    · rw [List.rdropWhile_concat_pos _ _ _ hb, List.rdropWhile_concat_pos _ _ _ hb, ih]
    · rw [List.rdropWhile_concat_neg _ _ _ hb, List.rdropWhile_concat_neg _ _ _ hb]
      simp

theorem drop_length_takeWhile {α : Type} (p : α → Bool) (l : List α) :
    l.drop (l.takeWhile p).length = l.dropWhile p := by
  induction l with
  | nil => rfl
  | cons a l ih =>
    by_cases h : p a <;> simp [List.takeWhile, List.dropWhile, h, ih]

/-- The string `strtrim` leaves in the buffer. -/
theorem strtrim_fst (str : List Char) :
    (strtrim str).1 = (str.dropWhile isspace).rdropWhile isspace := by
  unfold strtrim
  by_cases h : str = []
  · subst h; simp
  · simp only [h, if_false, drop_length_takeWhile]
    by_cases h1 : str.dropWhile isspace = []
    · simp [h1]
    · simp [h1]

/-- The value `strtrim` returns. -/
theorem strtrim_snd (str : List Char) :
    (strtrim str).2 =
      if str.dropWhile isspace = [] then 0
      else size_t_of ((((str.dropWhile isspace).rdropWhile isspace).length : Int)
                        - ((str.takeWhile isspace).length : Int)) := by
  unfold strtrim
  by_cases h : str = []
  · subst h; simp
  · simp only [h, if_false, drop_length_takeWhile]
    by_cases h1 : str.dropWhile isspace = []
    · simp [h1]
    · simp [h1]

/-- A string that starts with a non-blank character keeps it under
`strtrim`. -/
theorem strtrim_cons_of_not_space (c : Char) (l : List Char) (h : isspace c = false) :
    (strtrim (c :: l)).1 = c :: l.rdropWhile isspace := by
  rw [strtrim_fst, List.dropWhile_cons_of_neg (by simp [h]), rdropWhile_cons_of_neg _ _ _ (by simp [h])]

/-- The trimmed key of a line that starts with `[` starts with `[`. -/
theorem key_of_bracket_line (l : List Char) :
    ∃ k, (strtrim (split_keyval ('[' :: l)).1).1 = '[' :: k := by
  refine ⟨(l.takeWhile (fun c => c != '=')).rdropWhile isspace, ?_⟩
  have h : (split_keyval ('[' :: l)).1 = '[' :: l.takeWhile (fun c => c != '=') := by
    simp [split_keyval, List.takeWhile]
  rw [h, strtrim_cons_of_not_space _ _ (by decide)]

/-- A line whose trimmed key is `Server` or `Include` does not start with
`[`. -/
theorem head_ne_bracket_of_key (line key : List Char)
    (hk : (strtrim (split_keyval line).1).1 = key) (hne : key.head? ≠ some '[') :
    line.head? ≠ some '[' := by
  intro h
  cases line with
  | nil => simp at h
  | cons c l =>
    simp at h
    subst h
    obtain ⟨k, hk1⟩ := key_of_bracket_line l
    rw [hk1] at hk
    subst hk
    simp at hne

/-- A line that does not start with `[` passes the header step unchanged. -/
theorem header_step_of_head_ne (line : List Char) (len : Nat) (st : loop_state)
    (h : line.head? ≠ some '[') : header_step line len st = .ok st := by
  simp [header_step, h]

/-! ## Server lines before any section -/

/-- In a state with no current section (`*section == NULL`), every line
whose trimmed key is `Server` is skipped: the loop state, and so the
record list, is unchanged, no fault arises, and the loop goes on with the
next line. -/
theorem server_before_any_section (inc : List Char → shared → Except Fault (Int × shared))
    (buf : List Char) (rest : List (List Char)) (st : loop_state)
    (hs : st.sect = none) (hk : directive_key buf = some ['S', 'e', 'r', 'v', 'e', 'r']) :
    process_line inc buf st = .ok (false, st) ∧
    parse_lines inc (buf :: rest) st = parse_lines inc rest st := by
  have h1 : process_line inc buf st = .ok (false, st) := by
    unfold directive_key at hk
    split at hk
    next hmem =>
      simp only [Option.some.injEq] at hk
      unfold process_line
      simp only
      split
      · rfl
      · have hh := head_ne_bracket_of_key _ _ hk (by simp)
        unfold trimmed_line at hh hmem hk
        rw [header_step_of_head_ne _ _ _ hh]
        simp only [directive_step, hmem, if_true, hk, hs]
    next => simp at hk
  refine ⟨h1, ?_⟩
  simp only [parse_lines, h1]

/-- An instance: the line `Server = http://x` met in the initial state. -/
theorem server_before_any_section_witness :
    process_line (fun _ sh => .ok (0, sh)) "Server = http://x\n".toList ⟨none, none, false, 0⟩
      = .ok (false, ⟨none, none, false, 0⟩) ∧
    parse_lines (fun _ sh => .ok (0, sh)) ["Server = http://x\n".toList, "[a]\n".toList]
        ⟨none, none, false, 0⟩
      = parse_lines (fun _ sh => .ok (0, sh)) ["[a]\n".toList] ⟨none, none, false, 0⟩ :=
  server_before_any_section _ _ _ _ rfl (by decide)

/-! ## Included files that cannot be opened -/

/-- A file that cannot be opened returns `-errno` and leaves the shared
state as it was, whatever the fuel. -/
theorem parse_one_file_unopenable (env : Env) (fuel : Nat) (p : List Char) (e : Nat)
    (sh : shared) (hp : env.fopen p = .error e) :
    parse_one_file env fuel p sh = .ok (-(e : Int), sh) := by
  cases fuel <;> simp [parse_one_file, hp]

/-- The loop over a concatenation of path lists runs the first list, then
the second from the state the first one left. -/
theorem parse_include_loop_append (pf : List Char → shared → Except Fault (Int × shared))
    (l1 l2 : List (List Char)) (sh : shared) :
    parse_include_loop pf (l1 ++ l2) sh =
      match parse_include_loop pf l1 sh with
      | .error f => .error f
      | .ok sh1 => parse_include_loop pf l2 sh1 := by
  induction l1 generalizing sh with
  | nil => simp [parse_include_loop]
  | cons q l1 ih =>
    simp only [List.cons_append, parse_include_loop]
    cases h : pf q sh with
    | error f => simp
    | ok res => simp [ih]

/-- A path on which the call returns without touching the shared state can
be left out of the loop. -/
theorem parse_include_loop_skip (pf : List Char → shared → Except Fault (Int × shared))
    (l1 l2 : List (List Char)) (p : List Char)
    (hp : ∀ sh, ∃ r, pf p sh = .ok (r, sh)) (sh : shared) :
    parse_include_loop pf (l1 ++ p :: l2) sh = parse_include_loop pf (l1 ++ l2) sh := by
  rw [parse_include_loop_append, parse_include_loop_append]
  cases h : parse_include_loop pf l1 sh with
  | error f => rfl
  | ok sh1 =>
    obtain ⟨r, hr⟩ := hp sh1
    simp [parse_include_loop, hr]

/-- An Include line never leaves the loop of the including file by
`break`. -/
theorem include_line_no_break (inc : List Char → shared → Except Fault (Int × shared))
    (buf : List Char) (st st1 : loop_state) (b : Bool)
    (hk : directive_key buf = some ['I', 'n', 'c', 'l', 'u', 'd', 'e'])
    (h : process_line inc buf st = .ok (b, st1)) : b = false := by
  unfold directive_key at hk
  split at hk
  next hmem =>
    simp only [Option.some.injEq] at hk
    unfold process_line at h
    simp only at h
    split at h
    · simp at h; exact h.1
    · have hh := head_ne_bracket_of_key _ _ hk (by simp)
      unfold trimmed_line at hh hmem hk
      rw [header_step_of_head_ne _ _ _ hh] at h
      simp only [directive_step, hmem, if_true, hk] at h
      simp at h
      split at h
      · simp at h
      · simp at h; exact h.1
  next => simp at hk

/-- C8: when the path `p` of the expansion `l1 ++ p :: l2` of an Include
pattern cannot be opened, the call on `p` returns `-errno` with the shared
state untouched; the Include directive behaves as if the pattern expanded
to `l1 ++ l2` (the paths of `l1`, then those of `l2`, parsed in order);
every file parses to the same result as in the environment whose glob
leaves `p` out; and the including file goes on with the lines after the
Include line. -/
theorem unopenable_include_skipped (env : Env) (pattern p : List Char)
    (l1 l2 : List (List Char)) (e : Nat)
    (hp : env.fopen p = .error e) (hg : env.glob pattern = some (l1 ++ p :: l2)) :
    (∀ fuel sh, parse_one_file env fuel p sh = .ok (-(e : Int), sh)) ∧
    (∀ fuel sh, parse_include env.glob (parse_one_file env fuel) pattern sh =
      match parse_include_loop (parse_one_file env fuel) l1 sh with
      | .error f => .error f
      | .ok sh1 =>
        match parse_include_loop (parse_one_file env fuel) l2 sh1 with
        | .error f => .error f
        | .ok sh2 => .ok (0, sh2)) ∧
    (∀ fuel f sh, parse_one_file env fuel f sh =
      parse_one_file ⟨env.fopen, fun q => if q = pattern then some (l1 ++ l2) else env.glob q⟩
        fuel f sh) ∧
    (∀ (inc : List Char → shared → Except Fault (Int × shared)) buf rest st,
      directive_key buf = some ['I', 'n', 'c', 'l', 'u', 'd', 'e'] →
      parse_lines inc (buf :: rest) st =
        match process_line inc buf st with
        | .error f => .error f
        | .ok (_, st1) => parse_lines inc rest st1) := by
  have hskip : ∀ fuel sh, parse_include_loop (parse_one_file env fuel) (l1 ++ p :: l2) sh
      = parse_include_loop (parse_one_file env fuel) (l1 ++ l2) sh := fun fuel sh =>
    parse_include_loop_skip _ l1 l2 p
      (fun sh1 => ⟨_, parse_one_file_unopenable env fuel p e sh1 hp⟩) sh
  refine ⟨fun fuel sh => parse_one_file_unopenable env fuel p e sh hp, ?_, ?_, ?_⟩
  · intro fuel sh
    simp only [parse_include, hg, hskip]
    rw [parse_include_loop_append]
    cases parse_include_loop (parse_one_file env fuel) l1 sh <;> rfl
  · intro fuel
    induction fuel with
    | zero => intro f sh; simp [parse_one_file]
    | succ n ih =>
      intro f sh
      have hpf : parse_one_file env n
          = parse_one_file ⟨env.fopen, fun q => if q = pattern then some (l1 ++ l2) else env.glob q⟩ n := by
        funext f sh; exact ih f sh
      have hinc : parse_include env.glob (parse_one_file env n)
          = parse_include (fun q => if q = pattern then some (l1 ++ l2) else env.glob q)
              (parse_one_file env n) := by
        funext pat sh1
        by_cases hq : pat = pattern
        · subst hq
          simp only [parse_include, hg, if_true, hskip]
        · simp [parse_include, hq]
      simp only [parse_one_file]
      rw [hinc, hpf]
  · intro inc buf rest st hk
    cases h : process_line inc buf st with
    | error f => simp [parse_lines, h]
    | ok res =>
      obtain ⟨b, st1⟩ := res
      have hb := include_line_no_break inc buf st st1 b hk h
      subst hb
      simp [parse_lines, h]

/-- Witness for C8: the pattern `d/*` expands to `d/a`, `d/gone`, `d/b`,
and `d/gone` cannot be opened. -/
theorem unopenable_include_skipped_witness :
    (∀ fuel sh, parse_one_file
        (mkEnv [("r", "Include = d/*\n[z]\n"), ("d/a", "[a]\n"), ("d/b", "[b]\n")]
          [("d/*", ["d/a", "d/gone", "d/b"])]) fuel "d/gone".toList sh
        = .ok (-((2 : Nat) : Int), sh)) ∧
    (∀ fuel sh, parse_include
        (mkEnv [("r", "Include = d/*\n[z]\n"), ("d/a", "[a]\n"), ("d/b", "[b]\n")]
          [("d/*", ["d/a", "d/gone", "d/b"])]).glob
        (parse_one_file (mkEnv [("r", "Include = d/*\n[z]\n"), ("d/a", "[a]\n"), ("d/b", "[b]\n")]
          [("d/*", ["d/a", "d/gone", "d/b"])]) fuel) "d/*".toList sh =
      match parse_include_loop
        (parse_one_file (mkEnv [("r", "Include = d/*\n[z]\n"), ("d/a", "[a]\n"), ("d/b", "[b]\n")]
          [("d/*", ["d/a", "d/gone", "d/b"])]) fuel) ["d/a".toList] sh with
      | .error f => .error f
      | .ok sh1 =>
        match parse_include_loop
          (parse_one_file (mkEnv [("r", "Include = d/*\n[z]\n"), ("d/a", "[a]\n"), ("d/b", "[b]\n")]
            [("d/*", ["d/a", "d/gone", "d/b"])]) fuel) ["d/b".toList] sh1 with
        | .error f => .error f
        | .ok sh2 => .ok (0, sh2)) ∧
    (∀ fuel f sh, parse_one_file
        (mkEnv [("r", "Include = d/*\n[z]\n"), ("d/a", "[a]\n"), ("d/b", "[b]\n")]
          [("d/*", ["d/a", "d/gone", "d/b"])]) fuel f sh =
      parse_one_file
        ⟨(mkEnv [("r", "Include = d/*\n[z]\n"), ("d/a", "[a]\n"), ("d/b", "[b]\n")]
          [("d/*", ["d/a", "d/gone", "d/b"])]).fopen,
         fun q => if q = "d/*".toList then some (["d/a".toList] ++ ["d/b".toList])
           else (mkEnv [("r", "Include = d/*\n[z]\n"), ("d/a", "[a]\n"), ("d/b", "[b]\n")]
              [("d/*", ["d/a", "d/gone", "d/b"])]).glob q⟩
        fuel f sh) ∧
    (∀ (inc : List Char → shared → Except Fault (Int × shared)) buf rest st,
      directive_key buf = some ['I', 'n', 'c', 'l', 'u', 'd', 'e'] →
      parse_lines inc (buf :: rest) st =
        match process_line inc buf st with
        | .error f => .error f
        | .ok (_, st1) => parse_lines inc rest st1) :=
  unopenable_include_skipped
    (mkEnv [("r", "Include = d/*\n[z]\n"), ("d/a", "[a]\n"), ("d/b", "[b]\n")]
      [("d/*", ["d/a", "d/gone", "d/b"])])
    "d/*".toList "d/gone".toList ["d/a".toList] ["d/b".toList] 2 rfl rfl

/-! ## The effect of one line -/

/-- A line that starts with `[` is no `Server` or `Include` directive: the
directive step leaves the state as it is. -/
theorem directive_step_of_bracket (inc : List Char → shared → Except Fault (Int × shared))
    (l : List Char) (st : loop_state) :
    directive_step inc ('[' :: l) st = .ok (false, st) := by
  obtain ⟨k, hk⟩ := key_of_bracket_line l
  unfold directive_step
  split
  · simp only [hk]
    simp
  · rfl

/-- The header step either leaves the state, or enters `options`, or
creates a record; in the last two cases the line starts with `[`. -/
theorem header_step_cases (line : List Char) (len : Nat) (st st1 : loop_state)
    (h : header_step line len st = .ok st1) :
    (st1 = st ∧ ¬ (line.head? = some '[' ∧ line.get? (len - 1) = some ']')) ∨
    (line.head? = some '[' ∧ line.get? (len - 1) = some ']' ∧
      ((line.drop 1).take (len - 2) = ['o', 'p', 't', 'i', 'o', 'n', 's'] ∧ len - 2 = 7 ∧
        st1 = { st with sect := some ((line.drop 1).take (len - 2)), in_options := true } ∨
       ((len - 2 = 7 → (line.drop 1).take (len - 2) ≠ ['o', 'p', 't', 'i', 'o', 'n', 's']) ∧
        st1 = { st with sect := some ((line.drop 1).take (len - 2)), in_options := false,
                        active_repos := some (st.active_repos.getD []
                          ++ [repo_new ((line.drop 1).take (len - 2))]) }))) := by
  unfold header_step at h
  split at h
  next hh =>
    split at h
    next => simp at h
    next c hc =>
      split at h
      next hcb =>
        subst hcb
        right
        refine ⟨hh, hc, ?_⟩
        simp only at h
        split at h
        next ho =>
          left
          obtain ⟨ho1, ho2⟩ := ho
          refine ⟨?_, ho1, ?_⟩
          · rw [ho1] at ho2 ⊢
            rw [List.take_take] at ho2
            simpa using ho2
          · exact (Except.ok.inj h).symm
        next ho =>
          right
          refine ⟨?_, ?_⟩
          · intro h7 hopt
            apply ho
            refine ⟨h7, ?_⟩
            rw [hopt]; rfl
          · exact (Except.ok.inj h).symm
      next hcb =>
        left
        simp at h
        refine ⟨h.symm, ?_⟩
        rintro ⟨_, h2⟩
        rw [hc] at h2
        simp at h2
        exact hcb h2
  next hh =>
    left
    simp at h
    exact ⟨h.symm, fun h2 => hh h2.1⟩

/-- The directive step never leaves the loop by `break`, and either leaves
the state, or appends the value of a `Server` line to the last record, or
takes over the shared state an `Include` returned. -/
theorem directive_step_cases (inc : List Char → shared → Except Fault (Int × shared))
    (line : List Char) (st st1 : loop_state) (b : Bool)
    (h : directive_step inc line st = .ok (b, st1)) :
    b = false ∧
    (st1 = st ∨
     (∃ init repo, '=' ∈ line ∧
        (strtrim (split_keyval line).1).1 = ['S', 'e', 'r', 'v', 'e', 'r'] ∧
        st.sect ≠ none ∧ st.in_options = false ∧
        st.active_repos = some (init ++ [repo]) ∧
        st1 = { st with
          active_repos := some (init ++
            [{ repo with servers := repo.servers ++ [(strtrim (split_keyval line).2).1] }]),
          r := 0 }) ∨
     (∃ r sh, '=' ∈ line ∧
        (strtrim (split_keyval line).1).1 = ['I', 'n', 'c', 'l', 'u', 'd', 'e'] ∧
        inc (strtrim (split_keyval line).2).1 ⟨st.sect, st.active_repos⟩ = .ok (r, sh) ∧
        st1 = { st with sect := sh.sect, active_repos := sh.repos })) := by
  unfold directive_step at h
  split at h
  next hmem =>
    simp only at h
    split at h
    next hkey =>
      split at h
      next => simp at h; exact ⟨h.1, Or.inl h.2.symm⟩
      next hsect =>
        split at h
        next => simp at h; exact ⟨h.1, Or.inl h.2.symm⟩
        next hopt =>
          split at h
          next => simp at h
          next repos hrepos =>
            split at h
            next => simp at h
            next repo hlast =>
              simp [repo_add_server] at h
              refine ⟨h.1, Or.inr (Or.inl ⟨repos.dropLast, repo, hmem, hkey, hsect, ?_, ?_, ?_⟩)⟩
              · simpa using hopt
              · rw [hrepos, List.dropLast_append_getLast? repo hlast]
              · rw [← h.2]
    next hkey =>
      split at h
      next hinc =>
        split at h
        next => simp at h
        next r sh hres =>
          simp at h
          exact ⟨h.1, Or.inr (Or.inr ⟨r, sh, hmem, hinc, hres, h.2.symm⟩)⟩
      next => simp at h; exact ⟨h.1, Or.inl h.2.symm⟩
  next => simp at h; exact ⟨h.1, Or.inl h.2.symm⟩

/-- The effect of one loop iteration that ends without fault: the loop is
never left by `break`, and the state is either unchanged, or a header
entered `options`, or a header created a record, or a `Server` line
appended its value to the last record, or an `Include` line took over the
shared state its expansion returned. -/
theorem process_line_cases (inc : List Char → shared → Except Fault (Int × shared))
    (buf : List Char) (st st1 : loop_state) (b : Bool)
    (h : process_line inc buf st = .ok (b, st1)) :
    b = false ∧
    (st1 = st ∨
     (∃ name, header_name buf = some name ∧ name = ['o', 'p', 't', 'i', 'o', 'n', 's'] ∧
        st1 = { st with sect := some name, in_options := true }) ∨
     (∃ name, header_name buf = some name ∧ name ≠ ['o', 'p', 't', 'i', 'o', 'n', 's'] ∧
        st1 = { st with sect := some name, in_options := false,
                        active_repos := some (st.active_repos.getD [] ++ [repo_new name]) }) ∨
     (∃ init repo val, directive_key buf = some ['S', 'e', 'r', 'v', 'e', 'r'] ∧
        directive_val buf = some val ∧
        st.sect ≠ none ∧ st.in_options = false ∧
        st.active_repos = some (init ++ [repo]) ∧
        st1 = { st with
          active_repos := some (init ++ [{ repo with servers := repo.servers ++ [val] }]),
          r := 0 }) ∨
     (∃ val r sh, directive_key buf = some ['I', 'n', 'c', 'l', 'u', 'd', 'e'] ∧
        directive_val buf = some val ∧
        inc val ⟨st.sect, st.active_repos⟩ = .ok (r, sh) ∧
        st1 = { st with sect := sh.sect, active_repos := sh.repos })) := by
  unfold process_line at h
  simp only at h
  split at h
  next hz =>
    simp only [Except.ok.injEq, Prod.mk.injEq] at h
    exact ⟨h.1.symm, Or.inl h.2.symm⟩
  next hz =>
    split at h
    next => simp at h
    next st2 hhdr =>
      rcases header_step_cases _ _ _ _ hhdr with ⟨hst, _⟩ | ⟨hhead, hlast, hcase⟩
      · subst hst
        obtain ⟨hb, hd⟩ := directive_step_cases inc _ _ _ _ h
        refine ⟨hb, ?_⟩
        rcases hd with hd | ⟨init, repo, hmem, hkey, hs, ho, hr, hst1⟩ | ⟨r, sh, hmem, hkey, hinc, hst1⟩
        · exact Or.inl hd
        · refine Or.inr (Or.inr (Or.inr (Or.inl ⟨init, repo, _, ?_, ?_, hs, ho, hr, hst1⟩)))
          · simp only [directive_key, trimmed_line, hmem, if_true, hkey]
          · simp only [directive_val, trimmed_line, hmem, if_true]
        · refine Or.inr (Or.inr (Or.inr (Or.inr ⟨_, r, sh, ?_, ?_, hinc, hst1⟩)))
          · simp only [directive_key, trimmed_line, hmem, if_true, hkey]
          · simp only [directive_val, trimmed_line, hmem, if_true]
      · have hname : header_name buf
            = some (((strtrim ((cstr buf).takeWhile (fun c => c != '#'))).1.drop 1).take
                ((strtrim ((cstr buf).takeWhile (fun c => c != '#'))).2 - 2)) := by
          simp only [header_name, hz, hhead, hlast, ne_eq, not_false_eq_true, and_self, if_true]
        have hdir : directive_step inc (strtrim ((cstr buf).takeWhile (fun c => c != '#'))).1 st2
            = .ok (false, st2) := by
          cases hl : (strtrim ((cstr buf).takeWhile (fun c => c != '#'))).1 with
          | nil => rw [hl] at hhead; simp at hhead
          | cons c l =>
            rw [hl] at hhead
            simp only [List.head?_cons, Option.some.injEq] at hhead
            subst hhead
            exact directive_step_of_bracket inc l st2
        rw [hdir] at h
        simp only [Except.ok.injEq, Prod.mk.injEq] at h
        refine ⟨h.1.symm, ?_⟩
        rw [← h.2]
        rcases hcase with ⟨hopt, _, hst2⟩ | ⟨hnopt, hst2⟩
        · exact Or.inr (Or.inl ⟨_, hname, hopt, hst2⟩)
        · refine Or.inr (Or.inr (Or.inl ⟨_, hname, ?_, hst2⟩))
          intro hopt
          have hlen := congrArg List.length hopt
          have hlt : (strtrim ((cstr buf).takeWhile (fun c => c != '#'))).2 - 1
              < (strtrim ((cstr buf).takeWhile (fun c => c != '#'))).1.length := by
            by_contra hge
            rw [List.get?_eq_none.mpr (by omega)] at hlast
            simp at hlast
          simp only [List.length_take, List.length_drop, List.length_cons, List.length_nil] at hlen
          exact hnopt (by omega) hopt

/-! ## Invariants of a parse -/

/-- A property `Q` of the shared state (current section, record list) that
is kept by entering `options`, by creating a record for a header, by
appending the value of a `Server` line and by the Include calls, is kept
by the line loop.  `B` is a property of the buffers read. -/
theorem parse_lines_invariant (Q : Option (List Char) → Option (List repo_t) → Prop)
    (B : List Char → Prop)
    (inc : List Char → shared → Except Fault (Int × shared))
    (hopt : ∀ s rs, Q s rs → Q (some ['o', 'p', 't', 'i', 'o', 'n', 's']) rs)
    (hnew : ∀ buf name s rs, B buf → header_name buf = some name →
      name ≠ ['o', 'p', 't', 'i', 'o', 'n', 's'] → Q s rs →
      Q (some name) (some (rs.getD [] ++ [repo_new name])))
    (hsrv : ∀ buf val s init repo, B buf → directive_val buf = some val → s ≠ none →
      Q s (some (init ++ [repo])) →
      Q s (some (init ++ [{ repo with servers := repo.servers ++ [val] }])))
    (hinc : ∀ pat sh r sh1, Q sh.sect sh.repos → inc pat sh = .ok (r, sh1) →
      Q sh1.sect sh1.repos)
    (lines : List (List Char)) (hB : ∀ buf ∈ lines, B buf) (st st1 : loop_state)
    (hQ : Q st.sect st.active_repos ∧ st.r = 0)
    (h : parse_lines inc lines st = .ok st1) :
    Q st1.sect st1.active_repos ∧ st1.r = 0 := by
  induction lines generalizing st with
  | nil =>
    simp only [parse_lines, Except.ok.injEq] at h
    subst h; exact hQ
  | cons buf rest ih =>
    have hbuf := hB buf (List.mem_cons_self _ _)
    unfold parse_lines at h
    split at h
    next => simp at h
    next st2 hpl =>
      have hb := (process_line_cases inc buf st st2 true hpl).1
      simp at hb
    next st2 hpl =>
      refine ih (fun b hb => hB b (List.mem_cons_of_mem _ hb)) st2 ?_ h
      rcases (process_line_cases inc buf st st2 false hpl).2 with
        h1 | ⟨name, _, hn, h1⟩ | ⟨name, hname, hn, h1⟩ |
        ⟨init, repo, val, _, hval, hs, _, hr, h1⟩ | ⟨val, r, sh, _, _, hres, h1⟩
      · subst h1; exact hQ
      · subst h1 hn; exact ⟨hopt _ _ hQ.1, hQ.2⟩
      · subst h1; exact ⟨hnew buf name _ _ hbuf hname hn hQ.1, hQ.2⟩
      · subst h1
        refine ⟨?_, rfl⟩
        have hq := hQ.1
        rw [hr] at hq
        exact hsrv buf val _ init repo hbuf hval hs hq
      · subst h1
        exact ⟨hinc val ⟨st.sect, st.active_repos⟩ r sh hQ.1 hres, hQ.2⟩

/-- The loop of `parse_include` keeps every property the calls keep. -/
theorem parse_include_loop_invariant (Q : Option (List Char) → Option (List repo_t) → Prop)
    (pf : List Char → shared → Except Fault (Int × shared))
    (hpf : ∀ p sh r sh1, Q sh.sect sh.repos → pf p sh = .ok (r, sh1) → Q sh1.sect sh1.repos)
    (paths : List (List Char)) (sh sh1 : shared) (hQ : Q sh.sect sh.repos)
    (h : parse_include_loop pf paths sh = .ok sh1) : Q sh1.sect sh1.repos := by
  induction paths generalizing sh with
  | nil =>
    simp only [parse_include_loop, Except.ok.injEq] at h
    subst h; exact hQ
  | cons p ps ih =>
    unfold parse_include_loop at h
    split at h
    next => simp at h
    next r sh2 hres => exact ih sh2 (hpf p sh r sh2 hQ hres) h

/-- The function `parse_include` keeps every property the calls keep. -/
theorem parse_include_invariant (Q : Option (List Char) → Option (List repo_t) → Prop)
    (glob : List Char → Option (List (List Char)))
    (pf : List Char → shared → Except Fault (Int × shared))
    (hpf : ∀ p sh r sh1, Q sh.sect sh.repos → pf p sh = .ok (r, sh1) → Q sh1.sect sh1.repos)
    (pat : List Char) (sh sh1 : shared) (r : Int) (hQ : Q sh.sect sh.repos)
    (h : parse_include glob pf pat sh = .ok (r, sh1)) : Q sh1.sect sh1.repos := by
  unfold parse_include at h
  split at h
  next =>
    simp only [Except.ok.injEq, Prod.mk.injEq] at h
    rw [← h.2]; exact hQ
  next paths _ =>
    split at h
    next => simp at h
    next sh2 hloop =>
      simp only [Except.ok.injEq, Prod.mk.injEq] at h
      rw [← h.2]
      exact parse_include_loop_invariant Q pf hpf paths sh sh2 hQ hloop

/-- A property of the shared state kept by the three kinds of change is
kept by `parse_one_file`, at every depth of inclusion; the value returned
for a file that opens is 0. -/
theorem parse_one_file_invariant (Q : Option (List Char) → Option (List repo_t) → Prop)
    (B : List Char → Prop) (hfgets : ∀ content, ∀ buf ∈ fgets_all 4096 [] content, B buf)
    (hopt : ∀ s rs, Q s rs → Q (some ['o', 'p', 't', 'i', 'o', 'n', 's']) rs)
    (hnew : ∀ buf name s rs, B buf → header_name buf = some name →
      name ≠ ['o', 'p', 't', 'i', 'o', 'n', 's'] → Q s rs →
      Q (some name) (some (rs.getD [] ++ [repo_new name])))
    (hsrv : ∀ buf val s init repo, B buf → directive_val buf = some val → s ≠ none →
      Q s (some (init ++ [repo])) →
      Q s (some (init ++ [{ repo with servers := repo.servers ++ [val] }])))
    (env : Env) (fuel : Nat) (f : List Char) (sh sh1 : shared) (r : Int)
    (hQ : Q sh.sect sh.repos) (h : parse_one_file env fuel f sh = .ok (r, sh1)) :
    Q sh1.sect sh1.repos ∧ ((∃ c, env.fopen f = .ok c) → r = 0) := by
  induction fuel generalizing f sh sh1 r with
  | zero =>
    unfold parse_one_file at h
    split at h
    next e he =>
      simp only [Except.ok.injEq, Prod.mk.injEq] at h
      rw [← h.2]
      exact ⟨hQ, fun ⟨c, hc⟩ => by rw [he] at hc; simp at hc⟩
    next => simp at h
  | succ n ih =>
    unfold parse_one_file at h
    split at h
    next e he =>
      simp only [Except.ok.injEq, Prod.mk.injEq] at h
      rw [← h.2]
      exact ⟨hQ, fun ⟨c, hc⟩ => by rw [he] at hc; simp at hc⟩
    next content _ =>
      simp only at h
      split at h
      next => simp at h
      next st1 hlines =>
        simp only [Except.ok.injEq, Prod.mk.injEq] at h
        have hinv := parse_lines_invariant Q B _ hopt hnew hsrv
          (fun pat sh2 r2 sh3 hq hres =>
            parse_include_invariant Q env.glob (parse_one_file env n)
              (fun p sh4 r4 sh5 hq4 h4 => (ih p sh4 sh5 r4 hq4 h4).1) pat sh2 sh3 r2 hq hres)
          _ (hfgets content) _ st1 ⟨hQ, rfl⟩ hlines
        rw [← h.2, ← h.1]
        exact ⟨hinv.1, fun _ => hinv.2⟩

/-! ## Faults and termination -/

/-- A fault of one loop iteration is an out-of-bounds read, or the fault of
the Include call the line made. -/
theorem process_line_error (inc : List Char → shared → Except Fault (Int × shared))
    (buf : List Char) (st : loop_state) (f : Fault)
    (h : process_line inc buf st = .error f) :
    f = .line_out_of_bounds ∨ f = .repos_out_of_bounds ∨
    ∃ val sh, directive_key buf = some ['I', 'n', 'c', 'l', 'u', 'd', 'e'] ∧
      directive_val buf = some val ∧ inc val sh = .error f := by
  unfold process_line at h
  simp only at h
  split at h
  next => simp at h
  next hz =>
    split at h
    next f1 hhdr =>
      left
      simp only [Except.error.injEq] at h
      subst h
      unfold header_step at hhdr
      split at hhdr
      · split at hhdr
        · simp only [Except.error.injEq] at hhdr; exact hhdr.symm
        · split at hhdr
          · simp only at hhdr
            split at hhdr <;> simp at hhdr
          · simp at hhdr
      · simp at hhdr
    next st2 hhdr =>
      unfold directive_step at h
      split at h
      next hmem =>
        simp only at h
        split at h
        next hkey =>
          split at h
          · simp at h
          · split at h
            · simp at h
            · split at h
              · simp only [Except.error.injEq] at h; exact Or.inr (Or.inl h.symm)
              · split at h
                · simp only [Except.error.injEq] at h; exact Or.inr (Or.inl h.symm)
                · simp at h
        next hkey =>
          split at h
          next hinc =>
            split at h
            next f1 hres =>
              simp only [Except.error.injEq] at h
              subst h
              refine Or.inr (Or.inr ⟨_, _, ?_, ?_, hres⟩)
              · simp only [directive_key, trimmed_line, hmem, if_true, hinc]
              · simp only [directive_val, trimmed_line, hmem, if_true]
            next => simp at h
          next => simp at h
      next => simp at h

/-- The line loop does not run out of fuel when the Include calls of its
lines do not. -/
theorem parse_lines_fuel (inc : List Char → shared → Except Fault (Int × shared))
    (lines : List (List Char))
    (hinc : ∀ buf ∈ lines, directive_key buf = some ['I', 'n', 'c', 'l', 'u', 'd', 'e'] →
      ∀ val, directive_val buf = some val → ∀ sh, inc val sh ≠ .error .out_of_fuel)
    (st : loop_state) : parse_lines inc lines st ≠ .error .out_of_fuel := by
  induction lines generalizing st with
  | nil => simp [parse_lines]
  | cons buf rest ih =>
    unfold parse_lines
    split
    next f hpl =>
      intro hf
      simp only [Except.error.injEq] at hf
      subst hf
      rcases process_line_error inc buf st _ hpl with h1 | h1 | ⟨val, sh, hk, hv, hres⟩
      · simp at h1
      · simp at h1
      · exact hinc buf (List.mem_cons_self _ _) hk val hv sh hres
    next => simp
    next st1 _ => exact ih (fun b hb => hinc b (List.mem_cons_of_mem _ hb)) st1

/-- The loop of `parse_include` does not run out of fuel when the calls on
its paths do not. -/
theorem parse_include_loop_fuel (pf : List Char → shared → Except Fault (Int × shared))
    (paths : List (List Char)) (hpf : ∀ q ∈ paths, ∀ sh, pf q sh ≠ .error .out_of_fuel)
    (sh : shared) : parse_include_loop pf paths sh ≠ .error .out_of_fuel := by
  induction paths generalizing sh with
  | nil => simp [parse_include_loop]
  | cons q qs ih =>
    unfold parse_include_loop
    split
    next f hres =>
      intro hf
      simp only [Except.error.injEq] at hf
      subst hf
      exact hpf q (List.mem_cons_self _ _) sh hres
    next r sh1 _ => exact ih (fun p hp => hpf p (List.mem_cons_of_mem _ hp)) sh1

/-- Termination: when the include graph descends along `rank`, a fuel
above the rank of the file is enough, the parse of the file does not stop
for lack of fuel. -/
theorem parse_one_file_fuel (env : Env) (rank : List Char → Nat)
    (hd : includes_descend env rank) (fuel : Nat) (f : List Char) (sh : shared)
    (hf : rank f < fuel) : parse_one_file env fuel f sh ≠ .error .out_of_fuel := by
  induction fuel generalizing f sh with
  | zero => omega
  | succ n ih =>
    unfold parse_one_file
    split
    next => simp
    next content hopen =>
      simp only
      have hl := parse_lines_fuel (parse_include env.glob (parse_one_file env n))
        (fgets_all 4096 [] content)
        (fun buf hbuf hk val hv sh1 => by
          unfold parse_include
          split
          next => simp
          next paths hg =>
            have hloop := parse_include_loop_fuel (parse_one_file env n) paths
              (fun q hq sh2 => by
                cases hqo : env.fopen q with
                | error e => rw [parse_one_file_unopenable env n q e sh2 hqo]; simp
                | ok c =>
                  have hlt := hd f content hopen buf hbuf hk val hv paths hg q hq ⟨c, hqo⟩
                  exact ih q sh2 (by omega)) sh1
            split
            next f1 hf1 =>
              intro hh
              simp only [Except.error.injEq] at hh
              subst hh
              exact hloop hf1
            next => simp)
        ⟨sh.sect, sh.repos, false, 0⟩
      split
      next f1 hf1 =>
        intro hh
        simp only [Except.error.injEq] at hh
        subst hh
        exact hl hf1
      next => simp

/-! ## The result of `find_active_repos` -/

/-- The record array is never an allocated array of length 0: it is the
null pointer until the first record is stored. -/
theorem parse_one_file_repos_ne_nil (env : Env) (fuel : Nat) (f : List Char)
    (sh sh1 : shared) (r : Int) (hQ : sh.repos ≠ some [])
    (h : parse_one_file env fuel f sh = .ok (r, sh1)) :
    sh1.repos ≠ some [] ∧ ((∃ c, env.fopen f = .ok c) → r = 0) :=
  parse_one_file_invariant (fun _ rs => rs ≠ some []) (fun _ => True)
    (fun _ _ _ => trivial) (fun _ _ h => h) (fun _ _ _ _ _ _ _ _ => by simp)
    (fun _ _ _ _ _ _ _ _ _ => by simp) env fuel f sh sh1 r hQ h

/-- C7, as amended: with an include graph that descends along `rank` and
fuel above the rank of the root file, (1) a root file that cannot be
opened makes `find_active_repos` return NULL with `*repocount = 0`, the
value of `parse_one_file` being `-errno`; (2) a root file that opens makes
the run end in an out-of-bounds read or with `parse_one_file` returning 0
and `find_active_repos` returning the accumulated record array, which is
NULL exactly when no record was created. -/
theorem find_active_repos_result (env : Env) (rank : List Char → Nat)
    (hd : includes_descend env rank) (root : List Char) (fuel : Nat)
    (hf : rank root < fuel) :
    (∀ e, env.fopen root = .error e →
      parse_one_file env fuel root ⟨none, none⟩ = .ok (-(e : Int), ⟨none, none⟩) ∧
      find_active_repos env fuel root = .ok (none, 0)) ∧
    (∀ c, env.fopen root = .ok c →
      find_active_repos env fuel root = .error .line_out_of_bounds ∨
      find_active_repos env fuel root = .error .repos_out_of_bounds ∨
      ∃ sh, parse_one_file env fuel root ⟨none, none⟩ = .ok (0, sh) ∧
        find_active_repos env fuel root = .ok (sh.repos, repocount sh.repos) ∧
        (sh.repos = none ↔ repocount sh.repos = 0)) := by
  constructor
  · intro e he
    have hp := parse_one_file_unopenable env fuel root e ⟨none, none⟩ he
    refine ⟨hp, ?_⟩
    unfold find_active_repos
    rw [hp]
    simp only
    split <;> rfl
  · intro c hc
    have hfuel := parse_one_file_fuel env rank hd fuel root ⟨none, none⟩ hf
    cases hres : parse_one_file env fuel root ⟨none, none⟩ with
    | error f =>
      cases f with
      | out_of_fuel => exact absurd hres hfuel
      | line_out_of_bounds => left; simp [find_active_repos, hres]
      | repos_out_of_bounds => right; left; simp [find_active_repos, hres]
    | ok res =>
      obtain ⟨r, sh⟩ := res
      obtain ⟨hne, hr⟩ := parse_one_file_repos_ne_nil env fuel root ⟨none, none⟩ sh r
        (by simp) hres
      have hr0 := hr ⟨c, hc⟩
      subst hr0
      right; right
      refine ⟨sh, rfl, ?_, ?_⟩
      · simp [find_active_repos, hres]
      · cases hrepos : sh.repos with
        | none => simp [repocount]
        | some l =>
          rw [hrepos] at hne
          simp only [repocount, Option.getD_some, List.length_eq_zero]
          constructor
          · intro h0; simp at h0
          · intro hl; exact absurd (by rw [hl]) hne

/-- A table of files none of whose lines is an Include line has an include
graph that descends along every rank. -/
theorem mkEnv_no_include_descend (files : List (String × String))
    (globs : List (String × List String)) (rank : List Char → Nat)
    (h : ∀ x ∈ files, ∀ buf ∈ fgets_all 4096 [] x.2.toList,
      directive_key buf ≠ some ['I', 'n', 'c', 'l', 'u', 'd', 'e']) :
    includes_descend (mkEnv files globs) rank := by
  intro f content hopen buf hbuf hk
  exfalso
  simp only [mkEnv] at hopen
  split at hopen
  next x hx =>
    simp only [Except.ok.injEq] at hopen
    subst hopen
    exact h x (List.mem_of_find?_eq_some hx) buf hbuf hk
  next => simp at hopen

/-- Witness for C7: a root file with one section and one server, and a
root path that does not exist. -/
theorem find_active_repos_result_witness :
    (∀ e, (mkEnv [("r", "[core]\nServer = a\n")] []).fopen "r".toList = .error e →
      parse_one_file (mkEnv [("r", "[core]\nServer = a\n")] []) 1 "r".toList ⟨none, none⟩
        = .ok (-(e : Int), ⟨none, none⟩) ∧
      find_active_repos (mkEnv [("r", "[core]\nServer = a\n")] []) 1 "r".toList
        = .ok (none, 0)) ∧
    (∀ c, (mkEnv [("r", "[core]\nServer = a\n")] []).fopen "r".toList = .ok c →
      find_active_repos (mkEnv [("r", "[core]\nServer = a\n")] []) 1 "r".toList
        = .error .line_out_of_bounds ∨
      find_active_repos (mkEnv [("r", "[core]\nServer = a\n")] []) 1 "r".toList
        = .error .repos_out_of_bounds ∨
      ∃ sh, parse_one_file (mkEnv [("r", "[core]\nServer = a\n")] []) 1 "r".toList ⟨none, none⟩
          = .ok (0, sh) ∧
        find_active_repos (mkEnv [("r", "[core]\nServer = a\n")] []) 1 "r".toList
          = .ok (sh.repos, repocount sh.repos) ∧
        (sh.repos = none ↔ repocount sh.repos = 0)) :=
  find_active_repos_result (mkEnv [("r", "[core]\nServer = a\n")] []) (fun _ => 0)
    (mkEnv_no_include_descend _ _ _ (by decide))
    "r".toList 1 (by decide)

/-- C7 as stated fails: the root file below opens, the parse succeeds and
creates no record, and `find_active_repos` returns NULL with
`*repocount = 0`, the same as for a root file that cannot be opened. -/
theorem null_for_openable_root :
    (mkEnv [("r", "# no repositories\n[options]\nColor\n")] []).fopen "r".toList
      = .ok "# no repositories\n[options]\nColor\n".toList ∧
    parse_one_file (mkEnv [("r", "# no repositories\n[options]\nColor\n")] []) 1 "r".toList
      ⟨none, none⟩ = .ok (0, ⟨some "options".toList, none⟩) ∧
    find_active_repos (mkEnv [("r", "# no repositories\n[options]\nColor\n")] []) 1 "r".toList
      = .ok (none, 0) ∧
    find_active_repos (mkEnv [("r", "# no repositories\n[options]\nColor\n")] []) 1 "gone".toList
      = .ok (none, 0) :=
  ⟨rfl, rfl, rfl, rfl⟩

/-! ## Lines in normal form -/

/-- A whitespace character is none of the characters the parser looks for. -/
theorem isspace_ne (c : Char) (h : isspace c = true) :
    c ≠ '\x00' ∧ c ≠ '#' ∧ c ≠ '=' ∧ c ≠ '[' ∧ c ≠ ']' := by
  simp only [isspace, Bool.or_eq_true, beq_iff_eq] at h
  rcases h with ((((h | h) | h) | h) | h) | h <;> subst h <;> decide

theorem rdropWhile_append_all {α : Type} (p : α → Bool) (l w : List α)
    (hw : ∀ c ∈ w, p c = true) : List.rdropWhile p (l ++ w) = List.rdropWhile p l := by
  induction w using List.reverseRecOn with
  | nil => simp
  | append_singleton w c ih =>
    rw [← List.append_assoc, List.rdropWhile_concat_pos _ _ _ (hw c (by simp))]
    exact ih (fun d hd => hw d (by simp [hd]))

theorem rdropWhile_append_cons_of_neg {α : Type} (p : α → Bool) (l : List α) (c : α)
    (y : List α) (hc : ¬ p c = true) :
    List.rdropWhile p (l ++ c :: y) = l ++ c :: List.rdropWhile p y := by
  induction y using List.reverseRecOn with
  | nil =>
    rw [List.rdropWhile_concat_neg _ _ _ hc]
    simp
  | append_singleton y d ih =>
    have e : l ++ c :: (y ++ [d]) = (l ++ c :: y) ++ [d] := by simp
    rw [e]
    by_cases hd : p d = true
    · rw [List.rdropWhile_concat_pos _ _ _ hd, List.rdropWhile_concat_pos _ _ _ hd, ih]
    · rw [List.rdropWhile_concat_neg _ _ _ hd, List.rdropWhile_concat_neg _ _ _ hd]
      simp

theorem dropWhile_append_all {α : Type} (p : α → Bool) (w l : List α)
    (hw : ∀ c ∈ w, p c = true) : List.dropWhile p (w ++ l) = List.dropWhile p l := by
  induction w with
  | nil => rfl
  | cons c w ih =>
    rw [List.cons_append, List.dropWhile_cons_of_pos (hw c (by simp))]
    exact ih (fun d hd => hw d (by simp [hd]))

theorem rdropWhile_all {α : Type} (p : α → Bool) (w : List α) (hw : ∀ c ∈ w, p c = true) :
    List.rdropWhile p w = [] :=
  List.rdropWhile_eq_nil_iff.mpr hw

/-- A pointer difference that is a length below `2 ^ 64` converts to
itself. -/
theorem size_t_of_length (n : Nat) (h : n < 18446744073709551616) :
    size_t_of ((n : Int) - ((0 : Nat) : Int)) = n := by
  unfold size_t_of
  simp only [Nat.cast_zero, sub_zero]
  rw [Int.emod_eq_of_lt (by omega) (by omega)]
  simp

/-- On a string without leading whitespace `strtrim` removes the trailing
whitespace and returns the length of what is left (modulo `2 ^ 64`). -/
theorem strtrim_of_head (c : Char) (l : List Char) (h : isspace c = false) :
    strtrim (c :: l) =
      (c :: l.rdropWhile isspace,
       size_t_of (((c :: l.rdropWhile isspace).length : Int) - ((0 : Nat) : Int))) := by
  have h1 : (strtrim (c :: l)).1 = c :: l.rdropWhile isspace := strtrim_cons_of_not_space c l h
  have h2 := strtrim_snd (c :: l)
  rw [List.dropWhile_cons_of_neg (by simp [h]), rdropWhile_cons_of_neg _ _ _ (by simp [h]),
    List.takeWhile_cons_of_neg (by simp [h])] at h2
  simp only [List.cons_ne_nil, if_false, List.length_nil] at h2
  exact Prod.ext h1 h2

/-- A buffer without NUL and `#` is the text the loop body trims. -/
theorem strip_of_clean (buf : List Char) (h0 : '\x00' ∉ buf) (h1 : '#' ∉ buf) :
    (cstr buf).takeWhile (fun c => c != '#') = buf := by
  have e0 : cstr buf = buf := by
    unfold cstr
    rw [List.takeWhile_eq_self_iff]
    intro c hc
    simp only [bne_iff_ne, ne_eq]
    rintro rfl
    exact h0 hc
  rw [e0, List.takeWhile_eq_self_iff]
  intro c hc
  simp only [bne_iff_ne, ne_eq]
  rintro rfl
  exact h1 hc

/-- The effect of a header line in normal form, `[name]` followed by
whitespace: the section becomes `name`, and a record is created unless the
name is `options`. -/
theorem process_line_header (inc : List Char → shared → Except Fault (Int × shared))
    (name w : List Char) (st : loop_state)
    (h0 : '\x00' ∉ name) (h1 : '#' ∉ name) (hw : ∀ c ∈ w, isspace c = true)
    (hlen : name.length + 2 < 18446744073709551616) :
    process_line inc ('[' :: (name ++ ']' :: w)) st =
      .ok (false,
        if name = ['o', 'p', 't', 'i', 'o', 'n', 's'] then
          { st with sect := some name, in_options := true }
        else
          { st with sect := some name, in_options := false,
                    active_repos := some (st.active_repos.getD [] ++ [repo_new name]) }) := by
  have hstrip : (cstr ('[' :: (name ++ ']' :: w))).takeWhile (fun c => c != '#')
      = '[' :: (name ++ ']' :: w) := by
    apply strip_of_clean
    · simp only [List.mem_cons, List.mem_append, not_or]
      exact ⟨by decide, h0, by decide, fun h => (isspace_ne _ (hw _ h)).1 rfl⟩
    · simp only [List.mem_cons, List.mem_append, not_or]
      exact ⟨by decide, h1, by decide, fun h => (isspace_ne _ (hw _ h)).2.1 rfl⟩
  have htrim : strtrim ('[' :: (name ++ ']' :: w))
      = ('[' :: (name ++ [']']), name.length + 2) := by
    rw [strtrim_of_head _ _ (by decide), rdropWhile_append_cons_of_neg _ _ _ _ (by decide),
      rdropWhile_all _ _ hw]
    rw [size_t_of_length _ (by simp; omega)]
    simp
  unfold process_line
  simp only [hstrip, htrim]
  have hget : ('[' :: (name ++ [']'])).get? (name.length + 2 - 1) = some ']' := by
    simp [List.getElem?_append_right]
  have htake : (('[' :: (name ++ [']'])).drop 1).take (name.length + 2 - 2) = name := by
    simp
  have hhdr : header_step ('[' :: (name ++ [']'])) (name.length + 2) st =
      .ok (if name = ['o', 'p', 't', 'i', 'o', 'n', 's'] then
          { st with sect := some name, in_options := true }
        else
          { st with sect := some name, in_options := false,
                    active_repos := some (st.active_repos.getD [] ++ [repo_new name]) }) := by
    unfold header_step
    simp only [List.head?_cons, if_true, hget, htake]
    by_cases hopt : name = ['o', 'p', 't', 'i', 'o', 'n', 's']
    · subst hopt; rfl
    · have : ¬ (name.length + 2 - 2 = 7 ∧ List.take 7 name = ['o', 'p', 't', 'i', 'o', 'n', 's']) := by
        rintro ⟨h7, ht⟩
        apply hopt
        rw [← ht, List.take_of_length_le (by omega)]
      simp only [this, hopt, if_false]
  rw [if_neg (by omega), hhdr]
  simp only
  exact directive_step_of_bracket inc _ _

theorem takeWhile_append_cons_of_neg {α : Type} (p : α → Bool) (l : List α) (d : α)
    (y : List α) (hl : ∀ c ∈ l, p c = true) (hd : ¬ p d = true) :
    List.takeWhile p (l ++ d :: y) = l := by
  induction l with
  | nil => simp [List.takeWhile, hd]
  | cons c l ih =>
    rw [List.cons_append, List.takeWhile_cons_of_pos (hl c (by simp))]
    rw [ih (fun e he => hl e (by simp [he]))]

theorem dropWhile_append_cons_of_neg {α : Type} (p : α → Bool) (l : List α) (d : α)
    (y : List α) (hl : ∀ c ∈ l, p c = true) (hd : ¬ p d = true) :
    List.dropWhile p (l ++ d :: y) = d :: y := by
  induction l with
  | nil => simp [List.dropWhile, hd]
  | cons c l ih =>
    rw [List.cons_append, List.dropWhile_cons_of_pos (hl c (by simp))]
    exact ih (fun e he => hl e (by simp [he]))

/-- The value of a directive in normal form: whitespace, a trimmed text
`s`, whitespace, trimmed once as the tail of the line and once as the
value, is `s`. -/
theorem strtrim_value (w2 s w3 : List Char)
    (hw2 : ∀ c ∈ w2, isspace c = true) (hw3 : ∀ c ∈ w3, isspace c = true)
    (hs1 : s.dropWhile isspace = s) (hs2 : s.rdropWhile isspace = s) :
    (strtrim (List.rdropWhile isspace (w2 ++ (s ++ w3)))).1 = s := by
  rw [← List.append_assoc, rdropWhile_append_all _ _ _ hw3, strtrim_fst]
  induction s using List.reverseRecOn with
  | nil => simp [rdropWhile_all _ _ hw2]
  | append_singleton s c _ =>
    have hc : ¬ isspace c = true := by
      intro hc
      rw [List.rdropWhile_concat_pos _ _ _ hc] at hs2
      have := congrArg List.length hs2
      have hp := (List.rdropWhile_prefix (p := isspace) (l := s)).length_le
      simp at this
      omega
    rw [← List.append_assoc, List.rdropWhile_concat_neg _ _ _ hc, List.append_assoc,
      dropWhile_append_all _ _ _ hw2, hs1, hs2]

/-- The effect of a `Server` line in normal form (`Server`, whitespace,
`=`, whitespace, a trimmed value, whitespace) in a state with a current
section, `in_options = 0` and a last record: the value is appended to the
last record. -/
theorem process_line_server (inc : List Char → shared → Except Fault (Int × shared))
    (w1 w2 s w3 : List Char) (st : loop_state) (init : List repo_t) (repo : repo_t)
    (h0 : '\x00' ∉ s) (h1 : '#' ∉ s)
    (hw1 : ∀ c ∈ w1, isspace c = true) (hw2 : ∀ c ∈ w2, isspace c = true)
    (hw3 : ∀ c ∈ w3, isspace c = true)
    (hs1 : s.dropWhile isspace = s) (hs2 : s.rdropWhile isspace = s)
    (hlen : w1.length + w2.length + s.length + 7 < 18446744073709551616)
    (hsect : st.sect ≠ none) (hopt : st.in_options = false)
    (hrepos : st.active_repos = some (init ++ [repo])) :
    process_line inc (['S', 'e', 'r', 'v', 'e', 'r'] ++ (w1 ++ '=' :: (w2 ++ (s ++ w3)))) st =
      .ok (false, { st with
        active_repos := some (init ++ [{ repo with servers := repo.servers ++ [s] }]),
        r := 0 }) := by
  have hstrip : (cstr (['S', 'e', 'r', 'v', 'e', 'r'] ++ (w1 ++ '=' :: (w2 ++ (s ++ w3))))).takeWhile
      (fun c => c != '#') = ['S', 'e', 'r', 'v', 'e', 'r'] ++ (w1 ++ '=' :: (w2 ++ (s ++ w3))) := by
    apply strip_of_clean
    · simp only [List.mem_cons, List.mem_append, List.not_mem_nil, not_or]
      exact ⟨⟨by decide, by decide, by decide, by decide, by decide, by decide, not_false⟩,
        fun h => (isspace_ne _ (hw1 _ h)).1 rfl, by decide,
        fun h => (isspace_ne _ (hw2 _ h)).1 rfl, h0, fun h => (isspace_ne _ (hw3 _ h)).1 rfl⟩
    · simp only [List.mem_cons, List.mem_append, List.not_mem_nil, not_or]
      exact ⟨⟨by decide, by decide, by decide, by decide, by decide, by decide, not_false⟩,
        fun h => (isspace_ne _ (hw1 _ h)).2.1 rfl, by decide,
        fun h => (isspace_ne _ (hw2 _ h)).2.1 rfl, h1, fun h => (isspace_ne _ (hw3 _ h)).2.1 rfl⟩
  have hv : (List.rdropWhile isspace (w2 ++ (s ++ w3))).length ≤ w2.length + s.length := by
    rw [← List.append_assoc, rdropWhile_append_all _ _ _ hw3]
    have := (List.rdropWhile_prefix (p := isspace) (l := w2 ++ s)).length_le
    simpa using this
  have htrim : strtrim (['S', 'e', 'r', 'v', 'e', 'r'] ++ (w1 ++ '=' :: (w2 ++ (s ++ w3))))
      = (['S', 'e', 'r', 'v', 'e', 'r'] ++ (w1 ++ '=' :: List.rdropWhile isspace (w2 ++ (s ++ w3))),
         (['S', 'e', 'r', 'v', 'e', 'r'] ++ (w1 ++ '=' :: List.rdropWhile isspace (w2 ++ (s ++ w3)))).length) := by
    have e : ['S', 'e', 'r', 'v', 'e', 'r'] ++ (w1 ++ '=' :: (w2 ++ (s ++ w3)))
        = 'S' :: ((['e', 'r', 'v', 'e', 'r'] ++ w1) ++ '=' :: (w2 ++ (s ++ w3))) := by simp
    rw [e, strtrim_of_head _ _ (by decide), rdropWhile_append_cons_of_neg _ _ _ _ (by decide)]
    rw [size_t_of_length _ (by simp; omega)]
    simp
  have hkey : (strtrim (split_keyval (['S', 'e', 'r', 'v', 'e', 'r'] ++
      (w1 ++ '=' :: List.rdropWhile isspace (w2 ++ (s ++ w3))))).1).1
      = ['S', 'e', 'r', 'v', 'e', 'r'] := by
    have e : ['S', 'e', 'r', 'v', 'e', 'r'] ++ (w1 ++ '=' :: List.rdropWhile isspace (w2 ++ (s ++ w3)))
        = (['S', 'e', 'r', 'v', 'e', 'r'] ++ w1) ++ '=' :: List.rdropWhile isspace (w2 ++ (s ++ w3)) := by
      simp
    unfold split_keyval
    simp only
    rw [e, takeWhile_append_cons_of_neg _ _ _ _ _ (by decide)]
    · have e2 : ['S', 'e', 'r', 'v', 'e', 'r'] ++ w1 = 'S' :: (['e', 'r', 'v', 'e', 'r'] ++ w1) := rfl
      rw [e2, strtrim_cons_of_not_space _ _ (by decide), rdropWhile_append_all _ _ _ hw1]
      rfl
    · intro c hc
      simp only [List.mem_append, List.mem_cons, List.not_mem_nil, or_false] at hc
      rcases hc with hc | hc
      · rcases hc with rfl | rfl | rfl | rfl | rfl | rfl <;> decide
      · have := (isspace_ne _ (hw1 _ hc)).2.2.1
        simpa using this
  have hval : (strtrim (split_keyval (['S', 'e', 'r', 'v', 'e', 'r'] ++
      (w1 ++ '=' :: List.rdropWhile isspace (w2 ++ (s ++ w3))))).2).1 = s := by
    have e : ['S', 'e', 'r', 'v', 'e', 'r'] ++ (w1 ++ '=' :: List.rdropWhile isspace (w2 ++ (s ++ w3)))
        = (['S', 'e', 'r', 'v', 'e', 'r'] ++ w1) ++ '=' :: List.rdropWhile isspace (w2 ++ (s ++ w3)) := by
      simp
    unfold split_keyval
    simp only
    rw [e, dropWhile_append_cons_of_neg _ _ _ _ _ (by decide)]
    · simp only [List.drop_succ_cons, List.drop_zero]
      exact strtrim_value w2 s w3 hw2 hw3 hs1 hs2
    · intro c hc
      simp only [List.mem_append, List.mem_cons, List.not_mem_nil, or_false] at hc
      rcases hc with hc | hc
      · rcases hc with rfl | rfl | rfl | rfl | rfl | rfl <;> decide
      · have := (isspace_ne _ (hw1 _ hc)).2.2.1
        simpa using this
  unfold process_line
  simp only [hstrip, htrim]
  rw [if_neg (by simp), header_step_of_head_ne _ _ _ (by simp)]
  simp only
  unfold directive_step
  rw [if_pos (by simp)]
  simp only [hkey, hval, if_true, hsect, if_false, hopt, hrepos]
  simp [repo_add_server]

/-! ## Reading lines -/

/-- While the buffer has room and no newline arrives, `fgets` keeps
filling the same buffer. -/
theorem fgets_all_fill (size : Nat) (body cur rest : List Char)
    (hnl : '\n' ∉ body) (hlen : cur.length + body.length + 1 < size) :
    fgets_all size cur (body ++ rest) = fgets_all size (cur ++ body) rest := by
  induction body generalizing cur with
  | nil => simp
  | cons c b ih =>
    simp only [List.mem_cons, not_or] at hnl
    simp only [List.length_cons] at hlen
    rw [List.cons_append, fgets_all, if_neg]
    · rw [ih (cur ++ [c]) hnl.2 (by simp; omega)]
      simp
    · rintro (h | h)
      · exact hnl.1 h.symm
      · omega

/-- A line that fits the buffer together with its newline is read as one
buffer. -/
theorem fgets_all_line (size : Nat) (body rest : List Char)
    (hnl : '\n' ∉ body) (hlen : body.length + 1 < size) :
    fgets_all size [] (body ++ '\n' :: rest) = (body ++ ['\n']) :: fgets_all size [] rest := by
  rw [fgets_all_fill size body [] _ hnl (by simpa using hlen)]
  simp [fgets_all]

/-- A line longer than the buffer is cut after `size - 1` characters. -/
theorem fgets_all_cut (size : Nat) (body : List Char) (c : Char) (rest : List Char)
    (hnl : '\n' ∉ body) (hlen : body.length + 2 = size) :
    fgets_all size [] (body ++ c :: rest) = (body ++ [c]) :: fgets_all size [] rest := by
  rw [fgets_all_fill size body [] _ hnl (by simp; omega)]
  simp only [List.nil_append, fgets_all]
  rw [if_pos (Or.inr (by omega))]

/-- Lines that fit the buffer are read back one buffer each. -/
theorem fgets_all_flatten (size : Nat) (lines : List (List Char))
    (h : ∀ l ∈ lines, ∃ body, l = body ++ ['\n'] ∧ '\n' ∉ body ∧ body.length + 1 < size) :
    fgets_all size [] lines.flatten = lines := by
  induction lines with
  | nil => simp [fgets_all]
  | cons l ls ih =>
    obtain ⟨body, hl, hnl, hlen⟩ := h l (List.mem_cons_self _ _)
    subst hl
    rw [List.flatten_cons, List.append_assoc, List.singleton_append,
      fgets_all_line size body _ hnl hlen, ih (fun m hm => h m (List.mem_cons_of_mem _ hm))]

/-- In every buffer `fgets` delivers a newline can only be the last
character. -/
theorem fgets_all_newline (size : Nat) (content cur : List Char) (hcur : '\n' ∉ cur) :
    ∀ buf ∈ fgets_all size cur content, '\n' ∉ buf.dropLast := by
  induction content generalizing cur with
  | nil =>
    intro buf hbuf
    unfold fgets_all at hbuf
    split at hbuf
    · simp at hbuf
    · simp only [List.mem_singleton] at hbuf
      subst hbuf
      exact fun h => hcur (List.mem_of_mem_dropLast h)
  | cons c rest ih =>
    intro buf hbuf
    unfold fgets_all at hbuf
    split at hbuf
    · simp only [List.mem_cons] at hbuf
      rcases hbuf with hbuf | hbuf
      · subst hbuf
        rw [List.dropLast_concat]
        exact hcur
      · exact ih [] (by simp) buf hbuf
    next hc =>
      refine ih (cur ++ [c]) ?_ buf hbuf
      simp only [List.mem_append, List.mem_singleton, not_or]
      exact ⟨hcur, fun h => hc (Or.inl h.symm)⟩

/-! ## What the parser stores is clean -/

/-- The trimmed text of a buffer read by `fgets` holds no newline, `#` or
NUL. -/
theorem trimmed_line_clean (buf : List Char) (hB : '\n' ∉ buf.dropLast) :
    clean_text (trimmed_line buf) := by
  have hsub : ∀ c ∈ trimmed_line buf, c ∈ (cstr buf).takeWhile (fun c => c != '#') := by
    intro c hc
    unfold trimmed_line at hc
    rw [strtrim_fst] at hc
    exact (List.dropWhile_suffix _).subset ((List.rdropWhile_prefix _ _).subset hc)
  refine ⟨?_, ?_, ?_⟩
  · intro hmem
    unfold trimmed_line at hmem
    rw [strtrim_fst] at hmem
    obtain ⟨a, b, hab⟩ := List.append_of_mem hmem
    obtain ⟨u, hu⟩ := List.rdropWhile_prefix (p := isspace)
      (l := List.dropWhile isspace ((cstr buf).takeWhile (fun c => c != '#')))
    obtain ⟨v, hv⟩ := List.dropWhile_suffix (p := isspace)
      (l := (cstr buf).takeWhile (fun c => c != '#'))
    obtain ⟨x, hx⟩ := List.takeWhile_prefix (fun c => c != '#') (l := cstr buf)
    obtain ⟨y, hy⟩ : cstr buf <+: buf := List.takeWhile_prefix _
    have hbuf : buf = (v ++ a) ++ '\n' :: (b ++ u ++ x ++ y) := by
      rw [← hy, ← hx, ← hv, ← hu, hab]
      simp
    have hbu : b ++ u ++ x ++ y = [] := by
      by_contra hne
      apply hB
      have : ((v ++ a) ++ ['\n']) ++ (b ++ u ++ x ++ y) = (v ++ a) ++ '\n' :: (b ++ u ++ x ++ y) := by
        simp
      rw [hbuf, ← this, List.dropLast_append_of_ne_nil _ hne]
      simp
    simp only [List.append_eq_nil] at hbu
    obtain ⟨⟨⟨hb, hu0⟩, _⟩, _⟩ := hbu
    subst hb hu0
    rw [List.append_nil] at hu
    have hidem := List.rdropWhile_idempotent isspace
      (List.dropWhile isspace ((cstr buf).takeWhile (fun c => c != '#')))
    rw [hab, List.rdropWhile_concat_pos _ _ _ (by decide)] at hidem
    have h1 := congrArg List.length hidem
    have h2 := (List.rdropWhile_prefix (p := isspace) (l := a)).length_le
    simp at h1
    omega
  · intro hmem
    have := List.mem_takeWhile_imp (hsub _ hmem)
    simp at this
  · intro hmem
    have h1 : '\x00' ∈ cstr buf := (List.takeWhile_prefix _).subset (hsub _ hmem)
    have := List.mem_takeWhile_imp h1
    simp at this

/-- Every sublist of a clean text is clean. -/
theorem clean_text_of_subset (s t : List Char) (h : ∀ c ∈ s, c ∈ t) (ht : clean_text t) :
    clean_text s :=
  ⟨fun hc => ht.1 (h _ hc), fun hc => ht.2.1 (h _ hc), fun hc => ht.2.2 (h _ hc)⟩

/-- The string `strtrim` leaves has no leading and no trailing whitespace. -/
theorem strtrim_trimmed (x : List Char) : trimmed (strtrim x).1 := by
  rw [strtrim_fst]
  refine ⟨?_, List.rdropWhile_idempotent _ _⟩
  cases hd : List.dropWhile isspace x with
  | nil => simp
  | cons c d =>
    have hc : isspace c = false := by
      have := List.head_dropWhile_not isspace x (by rw [hd]; simp)
      simpa [hd] using this
    rw [rdropWhile_cons_of_neg _ _ _ (by simp [hc]), List.dropWhile_cons_of_neg (by simp [hc])]

/-- The section name of a header read by `fgets` is clean. -/
theorem header_name_clean (buf name : List Char) (hB : '\n' ∉ buf.dropLast)
    (h : header_name buf = some name) : clean_text name := by
  unfold header_name at h
  simp only at h
  split at h
  · simp only [Option.some.injEq] at h
    subst h
    refine clean_text_of_subset _ _ ?_ (trimmed_line_clean buf hB)
    intro c hc
    exact List.mem_of_mem_drop (List.mem_of_mem_take hc)
  · simp at h

/-- The value of a directive read by `fgets` is clean and trimmed. -/
theorem directive_val_clean (buf val : List Char) (hB : '\n' ∉ buf.dropLast)
    (h : directive_val buf = some val) : clean_text val ∧ trimmed val := by
  unfold directive_val at h
  split at h
  · simp only [Option.some.injEq] at h
    subst h
    refine ⟨clean_text_of_subset _ _ ?_ (trimmed_line_clean buf hB), strtrim_trimmed _⟩
    intro c hc
    rw [strtrim_fst] at hc
    have h1 := (List.dropWhile_suffix _).subset ((List.rdropWhile_prefix _ _).subset hc)
    unfold split_keyval at h1
    exact (List.dropWhile_suffix _).subset (List.mem_of_mem_drop h1)
  · simp at h

/-- Every record array a parse builds from a good one is good: null or
non-empty, every record with status flag 1, a clean name other than
`options`, and clean, trimmed servers. -/
theorem parse_one_file_good (env : Env) (fuel : Nat) (f : List Char) (sh sh1 : shared)
    (r : Int) (hQ : good_repos sh.repos) (h : parse_one_file env fuel f sh = .ok (r, sh1)) :
    good_repos sh1.repos := by
  refine (parse_one_file_invariant (fun _ rs => good_repos rs) (fun buf => '\n' ∉ buf.dropLast)
    (fun content => fgets_all_newline 4096 content [] (by simp))
    (fun _ _ h => h) ?_ ?_ env fuel f sh sh1 r hQ h).1
  · intro buf name s rs hB hname hne hg
    refine ⟨by simp, ?_⟩
    intro r hr
    simp only [Option.getD_some, List.mem_append, List.mem_singleton] at hr
    rcases hr with hr | hr
    · exact hg.2 r hr
    · subst hr
      exact ⟨rfl, hne, header_name_clean buf name hB hname, by simp [repo_new]⟩
  · intro buf val s init repo hB hval _ hg
    refine ⟨by simp, ?_⟩
    intro r hr
    simp only [Option.getD_some, List.mem_append, List.mem_singleton] at hr
    rcases hr with hr | hr
    · exact hg.2 r (by simp [hr])
    · subst hr
      have hrepo := hg.2 repo (by simp)
      refine ⟨hrepo.1, hrepo.2.1, hrepo.2.2.1, ?_⟩
      intro s1 hs1
      simp only [List.mem_append, List.mem_singleton] at hs1
      rcases hs1 with hs1 | hs1
      · exact hrepo.2.2.2 s1 hs1
      · subst hs1
        exact directive_val_clean buf _ hB hval

/-! ## Round trip -/

/-- The `Server` lines of a record, read in a state whose last record is
`repo`, append the servers to `repo` in order. -/
theorem parse_lines_servers (inc : List Char → shared → Except Fault (Int × shared))
    (servers : List (List Char)) (rest : List (List Char)) (st : loop_state)
    (init : List repo_t) (repo : repo_t)
    (hgood : ∀ s ∈ servers, clean_text s ∧ trimmed s)
    (hfit : ∀ s ∈ servers, (server_line s).length ≤ 4095)
    (hsect : st.sect ≠ none) (hopt : st.in_options = false)
    (hrepos : st.active_repos = some (init ++ [repo])) (hr : st.r = 0) :
    parse_lines inc (servers.map server_line ++ rest) st =
      parse_lines inc rest { st with
        active_repos := some (init ++ [{ repo with servers := repo.servers ++ servers }]) } := by
  induction servers generalizing st repo with
  | nil =>
    simp only [List.map_nil, List.nil_append, List.append_nil]
    rw [← hrepos]
  | cons s ss ih =>
    have hs := hgood s (List.mem_cons_self _ _)
    have hlen := hfit s (List.mem_cons_self _ _)
    have hline : server_line s
        = ['S', 'e', 'r', 'v', 'e', 'r'] ++ ([' '] ++ '=' :: ([' '] ++ (s ++ ['\n']))) := rfl
    have hstep := process_line_server inc [' '] [' '] s ['\n'] st init repo hs.1.2.2 hs.1.2.1
      (by decide) (by decide) (by decide) hs.2.1 hs.2.2
      (by simp [server_line] at hlen; simp; omega) hsect hopt hrepos
    rw [List.map_cons, List.cons_append, parse_lines, hline, hstep]
    simp only
    have hih := ih
      { sect := st.sect,
        active_repos := some (init ++ [{ name := repo.name, servers := repo.servers ++ [s],
                                         err := repo.err }]),
        in_options := st.in_options, r := 0 }
      { name := repo.name, servers := repo.servers ++ [s], err := repo.err }
      (fun x hx => hgood x (List.mem_cons_of_mem _ hx))
      (fun x hx => hfit x (List.mem_cons_of_mem _ hx)) hsect hopt rfl rfl
    rw [hih]
    simp [hr]

/-- The lines of a good record list, read from any state, append the
records to the array: the loop ends without fault, `r` is 0, and the
array is the old one followed by the records. -/
theorem parse_lines_serialized (inc : List Char → shared → Except Fault (Int × shared))
    (rs : List repo_t) (st : loop_state)
    (hgood : ∀ r ∈ rs, good_repo r)
    (hfit : ∀ l ∈ serialize_lines rs, l.length ≤ 4095) (hr : st.r = 0) :
    ∃ st1, parse_lines inc (serialize_lines rs) st = .ok st1 ∧ st1.r = 0 ∧
      st1.active_repos = if rs = [] then st.active_repos
        else some (st.active_repos.getD [] ++ rs) := by
  induction rs generalizing st with
  | nil => exact ⟨st, by simp [serialize_lines, parse_lines], hr, by simp⟩
  | cons r rs ih =>
    obtain ⟨herr, hne, hname, hservers⟩ := hgood r (List.mem_cons_self _ _)
    have hlines : serialize_lines (r :: rs)
        = header_line r.name :: (r.servers.map server_line ++ serialize_lines rs) := by
      simp [serialize_lines, record_lines]
    have hfit1 : (header_line r.name).length ≤ 4095 := hfit _ (by rw [hlines]; simp)
    have hfit2 : ∀ s ∈ r.servers, (server_line s).length ≤ 4095 := fun s hs =>
      hfit _ (by rw [hlines]; simp only [List.mem_cons, List.mem_append, List.mem_map]
                 exact Or.inr (Or.inl ⟨s, hs, rfl⟩))
    have hfit3 : ∀ l ∈ serialize_lines rs, l.length ≤ 4095 := fun l hl =>
      hfit _ (by rw [hlines]; simp only [List.mem_cons, List.mem_append]
                 exact Or.inr (Or.inr hl))
    have hhead : header_line r.name = '[' :: (r.name ++ ']' :: ['\n']) := rfl
    have hstep := process_line_header inc r.name ['\n'] st hname.2.2 hname.2.1 (by decide)
      (by simp [header_line] at hfit1; omega)
    rw [if_neg hne] at hstep
    rw [hlines, parse_lines, hhead, hstep]
    simp only
    have hsrv := parse_lines_servers inc r.servers (serialize_lines rs)
      { sect := some r.name,
        active_repos := some (st.active_repos.getD [] ++ [repo_new r.name]),
        in_options := false, r := st.r }
      (st.active_repos.getD []) (repo_new r.name) hservers hfit2 (by simp) rfl rfl hr
    rw [hsrv]
    have hrec : ({ repo_new r.name with servers := (repo_new r.name).servers ++ r.servers } : repo_t)
        = r := by
      cases r
      simp only [repo_new, List.nil_append] at herr ⊢
      rw [herr]
    rw [hrec]
    obtain ⟨st1, h1, h2, h3⟩ := ih
      { sect := some r.name,
        active_repos := some (st.active_repos.getD [] ++ [r]),
        in_options := false, r := st.r }
      (fun x hx => hgood x (List.mem_cons_of_mem _ hx)) hfit3 hr
    refine ⟨st1, h1, h2, ?_⟩
    rw [h3]
    by_cases hrs : rs = []
    · simp [hrs]
    · simp [hrs]

/-- Every line written for a good record list ends in its only newline. -/
theorem serialize_lines_form (rs : List repo_t) (hgood : ∀ r ∈ rs, good_repo r)
    (hfit : ∀ l ∈ serialize_lines rs, l.length ≤ 4095) :
    ∀ l ∈ serialize_lines rs, ∃ body, l = body ++ ['\n'] ∧ '\n' ∉ body ∧ body.length + 1 < 4096 := by
  intro l hl
  have hlen := hfit l hl
  simp only [serialize_lines, List.mem_flatMap, record_lines, List.mem_cons, List.mem_map] at hl
  obtain ⟨r, hr, hl | ⟨s, hs, hl⟩⟩ := hl
  · obtain ⟨_, _, hname, _⟩ := hgood r hr
    subst hl
    refine ⟨'[' :: (r.name ++ [']']), by simp [header_line], ?_, ?_⟩
    · simp only [List.mem_cons, List.mem_append, List.not_mem_nil, or_false, not_or]
      exact ⟨by decide, hname.1, by decide⟩
    · simp [header_line] at hlen ⊢; omega
  · obtain ⟨_, _, _, hservers⟩ := hgood r hr
    subst hl
    refine ⟨['S', 'e', 'r', 'v', 'e', 'r', ' ', '=', ' '] ++ s, by simp [server_line], ?_, ?_⟩
    · simp only [List.mem_cons, List.mem_append, List.not_mem_nil, or_false, not_or]
      exact ⟨⟨by decide, by decide, by decide, by decide, by decide, by decide, by decide,
        by decide, by decide⟩, (hservers s hs).1.1⟩
    · simp [server_line] at hlen ⊢; omega

/-- C6, as amended: when `find_active_repos` returns the record array `p`
with count `n`, and every line of the serialization of `p` fits the line
buffer together with its newline, then parsing a file whose content is
that serialization returns, for every positive fuel, the same array and
the same count: the same names and servers in the same order. -/
theorem serialize_roundtrip (env : Env) (fuel : Nat) (root : List Char)
    (p : Option (List repo_t)) (n : Nat)
    (h : find_active_repos env fuel root = .ok (p, n))
    (hfit : ∀ l ∈ serialize_lines (p.getD []), l.length ≤ 4095)
    (env2 : Env) (root2 : List Char)
    (hopen : env2.fopen root2 = .ok (serialize (p.getD []))) (fuel2 : Nat) :
    find_active_repos env2 (fuel2 + 1) root2 = .ok (p, n) := by
  have hgood : good_repos p ∧ n = (p.getD []).length := by
    unfold find_active_repos at h
    split at h
    next => simp at h
    next r sh hres =>
      have hg := parse_one_file_good env fuel root ⟨none, none⟩ sh r
        ⟨by simp, by simp⟩ hres
      split at h
      · simp only [Except.ok.injEq, Prod.mk.injEq] at h
        rw [← h.1, ← h.2]
        refine ⟨⟨by simp, by simp⟩, ?_⟩
        by_cases hopen1 : ∃ c, env.fopen root = .ok c
        · have := (parse_one_file_repos_ne_nil env fuel root ⟨none, none⟩ sh r (by simp) hres).2
            hopen1
          omega
        · cases he : env.fopen root with
          | ok c => exact absurd ⟨c, he⟩ hopen1
          | error e =>
            rw [parse_one_file_unopenable env fuel root e _ he] at hres
            simp only [Except.ok.injEq, Prod.mk.injEq] at hres
            rw [← hres.2]
            rfl
      · simp only [Except.ok.injEq, Prod.mk.injEq] at h
        rw [← h.1, ← h.2]
        exact ⟨hg, rfl⟩
  obtain ⟨⟨hne, hrec⟩, hn⟩ := hgood
  have hlines : fgets_all 4096 [] (serialize (p.getD [])) = serialize_lines (p.getD []) :=
    fgets_all_flatten 4096 _ (serialize_lines_form _ hrec hfit)
  obtain ⟨st1, h1, h2, h3⟩ := parse_lines_serialized
    (parse_include env2.glob (parse_one_file env2 fuel2)) (p.getD [])
    ⟨none, none, false, 0⟩ hrec hfit rfl
  unfold find_active_repos parse_one_file
  simp only [hopen, hlines, h1, h2]
  simp only [lt_self_iff_false, if_false, h3, hn, repocount]
  cases p with
  | none => simp
  | some l =>
    have hl : l ≠ [] := fun hl => hne (by rw [hl])
    simp [hl]

/-- Witness for C6: the two-section configuration is returned unchanged
when its serialization is parsed. -/
theorem serialize_roundtrip_witness :
    find_active_repos
      (mkEnv [("out", "[core]\nServer = http://a\n[extra]\nServer = http://b\nServer = http://c\n")] [])
      1 "out".toList
    = .ok (some [⟨"core".toList, ["http://a".toList], 1⟩,
                 ⟨"extra".toList, ["http://b".toList, "http://c".toList], 1⟩], 2) :=
  serialize_roundtrip
    (mkEnv [("r", "# mirrors\n[core]\n  Server=http://a # first\n\n[extra]\nServer =http://b\nServer= http://c")] [])
    1 "r".toList _ _ rfl (by decide)
    (mkEnv [("out", "[core]\nServer = http://a\n[extra]\nServer = http://b\nServer = http://c\n")] [])
    "out".toList rfl 0

/-! ## A serialized line longer than the line buffer -/

/-- A text without whitespace is trimmed. -/
theorem trimmed_of_no_space (x : List Char) (h : ∀ c ∈ x, isspace c = false) : trimmed x := by
  constructor
  · cases x with
    | nil => rfl
    | cons c x => exact List.dropWhile_cons_of_neg (by simp [h c (by simp)])
  · induction x using List.reverseRecOn with
    | nil => simp
    | append_singleton y c _ =>
      exact List.rdropWhile_concat_neg _ _ _ (by simp [h c (by simp)])

/-- The parse of a single file is the line loop over its buffers. -/
theorem find_active_repos_fileEnv (path content : List Char) (fuel : Nat) :
    find_active_repos (fileEnv path content) (fuel + 1) path =
      match parse_lines (parse_include (fileEnv path content).glob
          (parse_one_file (fileEnv path content) fuel))
          (fgets_all 4096 [] content) ⟨none, none, false, 0⟩ with
      | .error f => .error f
      | .ok st => if st.r < 0 then .ok (none, repocount st.active_repos)
                  else .ok (st.active_repos, repocount st.active_repos) := by
  unfold find_active_repos parse_one_file
  simp only [fileEnv, if_true]
  cases parse_lines _ _ _ <;> rfl

/-- A configuration whose `Server=` line fills the line buffer exactly:
the parse returns the full server, the parse of its serialization, whose
`Server = ` line is two characters longer, returns the server cut by one
character. -/
theorem long_line_parses (t : List Char) (ht : ∀ c ∈ t, c = 'a') (hlen : t.length = 4085)
    (fuel : Nat) :
    fgets_all 4096 [] (['[', 'a', ']', '\n', 'S', 'e', 'r', 'v', 'e', 'r', '='] ++
        (t ++ ['a', 'a']) ++ ['\n'])
      = [['[', 'a', ']', '\n'], ['S', 'e', 'r', 'v', 'e', 'r', '='] ++ (t ++ ['a', 'a']) ++ ['\n']] ∧
    find_active_repos (fileEnv ['r'] (['[', 'a', ']', '\n', 'S', 'e', 'r', 'v', 'e', 'r', '='] ++
        (t ++ ['a', 'a']) ++ ['\n'])) (fuel + 1) ['r']
      = .ok (some [⟨['a'], [t ++ ['a', 'a']], 1⟩], 1) ∧
    find_active_repos (fileEnv ['r'] (serialize [⟨['a'], [t ++ ['a', 'a']], 1⟩])) (fuel + 1) ['r']
      = .ok (some [⟨['a'], [t ++ ['a']], 1⟩], 1) := by
  have hnl : '\n' ∉ t := fun h => by have := ht _ h; revert this; decide
  have h0 : '\x00' ∉ t := fun h => by have := ht _ h; revert this; decide
  have h1 : '#' ∉ t := fun h => by have := ht _ h; revert this; decide
  have hsp : ∀ l : List Char, (∀ c ∈ l, c = 'a') → ∀ c ∈ t ++ l, isspace c = false := by
    intro l hl c hc
    rcases List.mem_append.mp hc with hc | hc
    · rw [ht c hc]; rfl
    · rw [hl c hc]; rfl
  have htr2 := trimmed_of_no_space (t ++ ['a', 'a']) (hsp _ (by simp))
  have htr1 := trimmed_of_no_space (t ++ ['a']) (hsp _ (by simp))
  have hlines1 : fgets_all 4096 [] (['[', 'a', ']', '\n', 'S', 'e', 'r', 'v', 'e', 'r', '='] ++
        (t ++ ['a', 'a']) ++ ['\n'])
      = [['[', 'a', ']', '\n'], ['S', 'e', 'r', 'v', 'e', 'r', '='] ++ (t ++ ['a', 'a']) ++ ['\n']] := by
    have e : ['[', 'a', ']', '\n', 'S', 'e', 'r', 'v', 'e', 'r', '='] ++ (t ++ ['a', 'a']) ++ ['\n']
        = ['[', 'a', ']'] ++ '\n' :: ((['S', 'e', 'r', 'v', 'e', 'r', '='] ++ (t ++ ['a', 'a'])) ++
            '\n' :: []) := by simp
    rw [e, fgets_all_line 4096 _ _ (by decide) (by decide), fgets_all_line 4096 _ _ ?_ ?_]
    · simp [fgets_all]
    · simp only [List.mem_append, List.mem_cons, List.not_mem_nil, or_false, not_or]
      exact ⟨⟨by decide, by decide, by decide, by decide, by decide, by decide, by decide⟩,
        hnl, by decide, by decide⟩
    · simp [hlen]
  have hlines2 : fgets_all 4096 [] (serialize [⟨['a'], [t ++ ['a', 'a']], 1⟩])
      = [['[', 'a', ']', '\n'], ['S', 'e', 'r', 'v', 'e', 'r', ' ', '=', ' '] ++ (t ++ ['a']),
         ['a', '\n']] := by
    have e : serialize [⟨['a'], [t ++ ['a', 'a']], 1⟩]
        = ['[', 'a', ']'] ++ '\n' :: ((['S', 'e', 'r', 'v', 'e', 'r', ' ', '=', ' '] ++ t) ++
            'a' :: (['a'] ++ '\n' :: [])) := by
      simp [serialize, serialize_lines, record_lines, header_line, server_line]
    rw [e, fgets_all_line 4096 _ _ (by decide) (by decide), fgets_all_cut 4096 _ _ _ ?_ ?_,
      fgets_all_line 4096 _ _ (by decide) (by decide)]
    · simp [fgets_all]
    · simp only [List.mem_append, List.mem_cons, List.not_mem_nil, or_false, not_or]
      exact ⟨⟨by decide, by decide, by decide, by decide, by decide, by decide, by decide,
        by decide, by decide⟩, hnl⟩
    · simp [hlen]
  refine ⟨hlines1, ?_, ?_⟩
  · rw [find_active_repos_fileEnv, hlines1]
    generalize parse_include _ _ = inc
    have hhdr := process_line_header inc
      ['a'] ['\n'] ⟨none, none, false, 0⟩ (by decide) (by decide) (by decide) (by decide)
    have hsrv := process_line_server inc
      [] [] (t ++ ['a', 'a']) ['\n'] ⟨some ['a'], some [repo_new ['a']], false, 0⟩ []
      (repo_new ['a'])
      (by simp only [List.mem_append, not_or]; exact ⟨h0, by decide⟩)
      (by simp only [List.mem_append, not_or]; exact ⟨h1, by decide⟩)
      (by simp) (by simp) (by decide) htr2.1 htr2.2 (by simp [hlen]) (by simp) rfl rfl
    rw [if_neg (by decide)] at hhdr
    simp only [List.nil_append] at hsrv
    have e1 : (['[', 'a', ']', '\n'] : List Char) = '[' :: (['a'] ++ ']' :: ['\n']) := rfl
    have e2 : ['S', 'e', 'r', 'v', 'e', 'r', '='] ++ (t ++ ['a', 'a']) ++ ['\n']
        = ['S', 'e', 'r', 'v', 'e', 'r'] ++ ([] ++ '=' :: ([] ++ ((t ++ ['a', 'a']) ++ ['\n']))) := by
      simp
    rw [e2, e1, parse_lines, hhdr]
    simp only [Option.getD_none, List.nil_append]
    rw [parse_lines, hsrv]
    simp [parse_lines, repo_new, repocount]
  · rw [find_active_repos_fileEnv, hlines2]
    generalize parse_include _ _ = inc
    have hhdr := process_line_header inc
      ['a'] ['\n'] ⟨none, none, false, 0⟩ (by decide) (by decide) (by decide) (by decide)
    have hsrv := process_line_server inc
      [' '] [' '] (t ++ ['a']) [] ⟨some ['a'], some [repo_new ['a']], false, 0⟩ []
      (repo_new ['a'])
      (by simp only [List.mem_append, not_or]; exact ⟨h0, by decide⟩)
      (by simp only [List.mem_append, not_or]; exact ⟨h1, by decide⟩)
      (by decide) (by decide) (by simp) htr1.1 htr1.2 (by simp [hlen]) (by simp) rfl rfl
    rw [if_neg (by decide)] at hhdr
    simp only [List.nil_append] at hsrv
    have e1 : (['[', 'a', ']', '\n'] : List Char) = '[' :: (['a'] ++ ']' :: ['\n']) := rfl
    have e2 : ['S', 'e', 'r', 'v', 'e', 'r', ' ', '=', ' '] ++ (t ++ ['a'])
        = ['S', 'e', 'r', 'v', 'e', 'r'] ++ ([' '] ++ '=' :: ([' '] ++ ((t ++ ['a']) ++ []))) := by
      simp
    have hlast : ∀ st, process_line inc ['a', '\n'] st = .ok (false, st) := fun st => rfl
    rw [e2, e1, parse_lines, hhdr]
    simp only [Option.getD_none, List.nil_append]
    simp only [parse_lines, hsrv, hlast]
    simp [repo_new, repocount]

/-- C6 as stated fails: every line of the configuration `[a]`,
`Server=` followed by 4087 times `a`, fits the 4096-byte line buffer (the
second line has 4095 characters with its newline) and the parse returns
`a` with that server; in the serialization the line `Server = ...` has
4097 characters, `fgets` cuts it after 4095, and the parse of the
serialization returns `a` with a server of 4086 characters. -/
theorem roundtrip_fails_on_long_line :
    (∀ buf ∈ fgets_all 4096 [] (['[', 'a', ']', '\n', 'S', 'e', 'r', 'v', 'e', 'r', '='] ++
        (List.replicate 4085 'a' ++ ['a', 'a']) ++ ['\n']),
      buf.length ≤ 4095 ∧ buf.getLast? = some '\n') ∧
    find_active_repos (fileEnv ['r'] (['[', 'a', ']', '\n', 'S', 'e', 'r', 'v', 'e', 'r', '='] ++
        (List.replicate 4085 'a' ++ ['a', 'a']) ++ ['\n'])) 1 ['r']
      = .ok (some [⟨['a'], [List.replicate 4085 'a' ++ ['a', 'a']], 1⟩], 1) ∧
    find_active_repos
        (fileEnv ['r'] (serialize [⟨['a'], [List.replicate 4085 'a' ++ ['a', 'a']], 1⟩])) 1 ['r']
      = .ok (some [⟨['a'], [List.replicate 4085 'a' ++ ['a']], 1⟩], 1) ∧
    (some [(⟨['a'], [List.replicate 4085 'a' ++ ['a']], 1⟩ : repo_t)], 1)
      ≠ (some [(⟨['a'], [List.replicate 4085 'a' ++ ['a', 'a']], 1⟩ : repo_t)], 1) := by
  obtain ⟨h1, h2, h3⟩ := long_line_parses (List.replicate 4085 'a')
    (fun c hc => (List.mem_replicate.mp hc).2) (List.length_replicate _ _) 0
  refine ⟨?_, h2, h3, ?_⟩
  · rw [h1]
    intro buf hbuf
    simp only [List.mem_cons, List.mem_singleton, List.not_mem_nil, or_false] at hbuf
    rcases hbuf with hb | hb <;> subst hb
    · exact ⟨by decide, by decide⟩
    · refine ⟨?_, ?_⟩
      · simp only [List.length_append, List.length_replicate, List.length_cons, List.length_nil]
        decide
      · rw [List.getLast?_append]
        rfl
  · intro h
    have := congrArg (fun x => (x.1.getD []).map (fun r => r.servers.map List.length)) h
    simp only [Option.getD_some, List.map_cons, List.map_nil, List.length_append,
      List.length_replicate, List.length_cons, List.length_nil] at this
    exact absurd this (by decide)

/-! ## Supporting facts about the model -/

/-- The current section stays absent as long as no header is read: a line
that is no header, read with `*section == NULL`, leaves it NULL when the
Include calls do. -/
theorem no_header_keeps_no_section (inc : List Char → shared → Except Fault (Int × shared))
    (hinc : ∀ val sh r sh1, sh.sect = none → inc val sh = .ok (r, sh1) → sh1.sect = none)
    (buf : List Char) (st st1 : loop_state) (b : Bool)
    (h : process_line inc buf st = .ok (b, st1))
    (hs : st.sect = none) (hh : header_name buf = none) : st1.sect = none := by
  rcases (process_line_cases inc buf st st1 b h).2 with
    h1 | ⟨name, hname, _, _⟩ | ⟨name, hname, _, _⟩ |
    ⟨init, repo, val, _, _, hsect, _, _, _⟩ | ⟨val, r, sh, _, _, hres, h1⟩
  · rw [h1]; exact hs
  · rw [hh] at hname; simp at hname
  · rw [hh] at hname; simp at hname
  · exact absurd hs hsect
  · rw [h1]
    exact hinc val ⟨st.sect, st.active_repos⟩ r sh hs hres

/-- The value `strtrim` returns is at most the length of the trimmed
string, or it has wrapped around: an index `len - 1` that is not inside
the string is outside every buffer. -/
theorem strtrim_snd_range (str : List Char) (hlen : str.length < 18446744073709551616) :
    (strtrim str).2 ≤ (strtrim str).1.length ∨
    18446744073709551616 ≤ (strtrim str).2 + str.length := by
  rw [strtrim_snd, strtrim_fst]
  split
  · left; exact Nat.zero_le _
  · have h1 : (str.takeWhile isspace).length + (str.dropWhile isspace).length = str.length := by
      rw [← List.length_append, List.takeWhile_append_dropWhile]
    have h2 := (List.rdropWhile_prefix isspace (str.dropWhile isspace)).length_le
    unfold size_t_of
    by_cases hk : (str.takeWhile isspace).length
        ≤ ((str.dropWhile isspace).rdropWhile isspace).length
    · left
      rw [Int.emod_eq_of_lt (by omega) (by omega)]
      omega
    · right
      have e : (((str.dropWhile isspace).rdropWhile isspace).length : Int)
            - ((str.takeWhile isspace).length : Int)
          = (((str.dropWhile isspace).rdropWhile isspace).length : Int)
            - ((str.takeWhile isspace).length : Int) + 18446744073709551616
            + (-1) * 18446744073709551616 := by ring
      rw [e, Int.add_mul_emod_self, Int.emod_eq_of_lt (by omega) (by omega)]
      omega

/-! ## Appending a server -/

/-- C13: on an existing record `repo_add_server` returns 0 and leaves the
record with the string appended at the end of its server list: the count
grows by one, the old entries are the first entries of the new list in the
same positions, the new last entry is the string, name and status flag are
unchanged, and a string already in the list is appended again; on a null
record it returns 1 and there is no record to change. -/
theorem repo_add_server_appends (r : repo_t) (server : List Char) :
    repo_add_server (some r) server
      = (some { name := r.name, servers := r.servers ++ [server], err := r.err }, 0) ∧
    (r.servers ++ [server]).length = r.servers.length + 1 ∧
    (r.servers ++ [server]).take r.servers.length = r.servers ∧
    (r.servers ++ [server]).get? r.servers.length = some server ∧
    (repo_add_server (some { r with servers := r.servers ++ [server] }) server).1
      = some { name := r.name, servers := r.servers ++ [server] ++ [server], err := r.err } ∧
    repo_add_server none server = (none, 1) := by
  refine ⟨rfl, by simp, by simp, by simp, rfl, rfl⟩

/-! ## The value returned by `strtrim` -/

/-- C18: the buffer is trimmed as the claim says, the value returned is
not its length: for ` ab` (one leading blank) `strtrim` leaves `ab` and
returns 1, for `  ab` it leaves `ab` and returns 0, and the line
`        Server=x` (eight leading blanks), which is not blank, is skipped
at the emptiness check: in a state where the bare line `Server=x` appends
`x`, it appends nothing. -/
theorem strtrim_returns_short (inc : List Char → shared → Except Fault (Int × shared)) :
    strtrim " ab".toList = ("ab".toList, 1) ∧
    strtrim "  ab".toList = ("ab".toList, 0) ∧
    trimmed_line "        Server=x\n".toList = "Server=x".toList ∧
    line_len "        Server=x\n".toList = 0 ∧
    process_line inc "        Server=x\n".toList
        ⟨some "core".toList, some [repo_new "core".toList], false, 0⟩
      = .ok (false, ⟨some "core".toList, some [repo_new "core".toList], false, 0⟩) ∧
    process_line inc "Server=x\n".toList
        ⟨some "core".toList, some [repo_new "core".toList], false, 0⟩
      = .ok (false, ⟨some "core".toList, some [⟨"core".toList, ["x".toList], 1⟩], false, 0⟩) :=
  ⟨rfl, rfl, rfl, rfl, rfl, rfl⟩

/-- The buffer part of `strtrim` is right for every string: what is left
is the string without its leading and trailing whitespace. -/
theorem strtrim_buffer (s : List Char) :
    ∃ w1 w2 : List Char, (∀ c ∈ w1, isspace c = true) ∧ (∀ c ∈ w2, isspace c = true) ∧
      s = w1 ++ (strtrim s).1 ++ w2 ∧ trimmed (strtrim s).1 := by
  obtain ⟨w2, hw2⟩ := List.rdropWhile_prefix isspace (s.dropWhile isspace)
  refine ⟨s.takeWhile isspace, w2, fun c hc => List.mem_takeWhile_imp hc, ?_, ?_,
    strtrim_trimmed s⟩
  · intro c hc
    by_contra hsp
    have h1 : List.rdropWhile isspace (s.dropWhile isspace)
        = List.rdropWhile isspace (List.rdropWhile isspace (s.dropWhile isspace) ++ w2) := by
      rw [hw2]
    obtain ⟨a, b, hab⟩ := List.append_of_mem hc
    rw [hab, ← List.append_assoc,
      rdropWhile_append_cons_of_neg isspace _ c b hsp] at h1
    have h2 := congrArg List.length h1
    simp at h2
  · rw [strtrim_fst, List.append_assoc, hw2, List.takeWhile_append_dropWhile]

/-- Without leading whitespace the value `strtrim` returns is the length
of the trimmed string. -/
theorem strtrim_length_of_head (c : Char) (l : List Char) (h : isspace c = false)
    (hlen : (c :: l).length < 18446744073709551616) :
    (strtrim (c :: l)).2 = (strtrim (c :: l)).1.length := by
  rw [strtrim_of_head c l h]
  have hp := (List.rdropWhile_prefix isspace l).length_le
  simp only [List.length_cons] at hlen ⊢
  exact size_t_of_length _ (by omega)

/-! ## Header lines and directive lines -/

/-- A line that passes the header test has the header effect and nothing
else, whatever the Include function: the section becomes the extracted
name, and a record with that name is created unless the name is
`options`. -/
theorem process_line_of_header (inc : List Char → shared → Except Fault (Int × shared))
    (buf : List Char) (st : loop_state) (name : List Char)
    (h : header_name buf = some name) :
    process_line inc buf st =
      .ok (false,
        if name = ['o', 'p', 't', 'i', 'o', 'n', 's'] then
          { st with sect := some name, in_options := true }
        else
          { st with sect := some name, in_options := false,
                    active_repos := some (st.active_repos.getD [] ++ [repo_new name]) }) := by
  unfold header_name at h
  simp only at h
  split at h
  next hc =>
    obtain ⟨hz, hhead, hlast⟩ := hc
    simp only [Option.some.injEq] at h
    have hlt : (strtrim ((cstr buf).takeWhile (fun c => c != '#'))).2 - 1
        < (strtrim ((cstr buf).takeWhile (fun c => c != '#'))).1.length := by
      by_contra hge
      rw [List.get?_eq_none.mpr (by omega)] at hlast
      simp at hlast
    have hopt : ((strtrim ((cstr buf).takeWhile (fun c => c != '#'))).2 - 2 = 7 ∧
        (((strtrim ((cstr buf).takeWhile (fun c => c != '#'))).1.drop 1).take
          ((strtrim ((cstr buf).takeWhile (fun c => c != '#'))).2 - 2)).take 7
          = ['o', 'p', 't', 'i', 'o', 'n', 's'])
        ↔ name = ['o', 'p', 't', 'i', 'o', 'n', 's'] := by
      rw [h]
      constructor
      · rintro ⟨h7, ht⟩
        rw [← ht, List.take_of_length_le]
        rw [← h, List.length_take]
        omega
      · intro hn
        have hl := congrArg List.length hn
        rw [← h] at hl
        simp only [List.length_take, List.length_drop, List.length_cons, List.length_nil] at hl
        refine ⟨by omega, ?_⟩
        rw [hn]; rfl
    have hhdr : header_step (strtrim ((cstr buf).takeWhile (fun c => c != '#'))).1
        (strtrim ((cstr buf).takeWhile (fun c => c != '#'))).2 st =
        .ok (if name = ['o', 'p', 't', 'i', 'o', 'n', 's'] then
            { st with sect := some name, in_options := true }
          else
            { st with sect := some name, in_options := false,
                      active_repos := some (st.active_repos.getD [] ++ [repo_new name]) }) := by
      unfold header_step
      simp only [hhead, if_true, hlast]
      by_cases hn : name = ['o', 'p', 't', 'i', 'o', 'n', 's']
      · rw [if_pos (hopt.mpr hn), if_pos hn, h]
      · rw [if_neg (fun hh => hn (hopt.mp hh)), if_neg hn, h]
    unfold process_line
    simp only
    rw [if_neg hz, hhdr]
    simp only
    cases hl : (strtrim ((cstr buf).takeWhile (fun c => c != '#'))).1 with
    | nil => rw [hl] at hhead; simp at hhead
    | cons c l =>
      rw [hl] at hhead
      simp only [List.head?_cons, Option.some.injEq] at hhead
      subst hhead
      exact directive_step_of_bracket inc l _
  next => simp at h

/-- A line that passes the emptiness check and does not start with `[` is
handled by the directive step alone. -/
theorem process_line_of_no_bracket (inc : List Char → shared → Except Fault (Int × shared))
    (buf : List Char) (st : loop_state) (hz : line_len buf ≠ 0)
    (hhead : (trimmed_line buf).head? ≠ some '[') :
    process_line inc buf st = directive_step inc (trimmed_line buf) st := by
  unfold process_line
  simp only
  unfold line_len at hz
  unfold trimmed_line at hhead ⊢
  rw [if_neg hz, header_step_of_head_ne _ _ _ hhead]

/-- A `Server` line that passes the emptiness check, read with a current
section, `in_options = 0` and a last record, appends its value to that
record. -/
theorem process_line_server_key (inc : List Char → shared → Except Fault (Int × shared))
    (buf val : List Char) (st : loop_state) (init : List repo_t) (repo : repo_t)
    (hz : line_len buf ≠ 0)
    (hk : directive_key buf = some ['S', 'e', 'r', 'v', 'e', 'r'])
    (hv : directive_val buf = some val)
    (hsect : st.sect ≠ none) (hopt : st.in_options = false)
    (hrepos : st.active_repos = some (init ++ [repo])) :
    process_line inc buf st = .ok (false, { st with
      active_repos := some (init ++ [{ repo with servers := repo.servers ++ [val] }]),
      r := 0 }) := by
  unfold directive_key at hk
  unfold directive_val at hv
  split at hk
  next hmem =>
    simp only [Option.some.injEq, hmem, if_true] at hk hv
    rw [process_line_of_no_bracket inc buf st hz
      (head_ne_bracket_of_key _ _ hk (by simp))]
    unfold directive_step
    rw [if_pos hmem]
    simp only [hk, hv, if_true, hsect, if_false, hopt, hrepos]
    simp [repo_add_server]
  next => simp at hk

/-- An `Include` line that passes the emptiness check hands its value to
`parse_include` and takes over the shared state that call returns. -/
theorem process_line_include_key (inc : List Char → shared → Except Fault (Int × shared))
    (buf val : List Char) (st : loop_state)
    (hz : line_len buf ≠ 0)
    (hk : directive_key buf = some ['I', 'n', 'c', 'l', 'u', 'd', 'e'])
    (hv : directive_val buf = some val) :
    process_line inc buf st =
      match inc val ⟨st.sect, st.active_repos⟩ with
      | .error f => .error f
      | .ok (_, sh) => .ok (false, { st with sect := sh.sect, active_repos := sh.repos }) := by
  unfold directive_key at hk
  unfold directive_val at hv
  split at hk
  next hmem =>
    simp only [Option.some.injEq, hmem, if_true] at hk hv
    rw [process_line_of_no_bracket inc buf st hz
      (head_ne_bracket_of_key _ _ hk (by simp))]
    unfold directive_step
    rw [if_pos hmem]
    simp only [hk, hv]
    rw [if_neg (by decide), if_pos trivial]
  next => simp at hk

/-- A line that does not start with `[` and has no `=`, or a key other
than `Server` and `Include`, changes nothing. -/
theorem process_line_other_key (inc : List Char → shared → Except Fault (Int × shared))
    (buf : List Char) (st : loop_state)
    (hhead : (trimmed_line buf).head? ≠ some '[')
    (hk : ∀ k, directive_key buf = some k →
      k ≠ ['S', 'e', 'r', 'v', 'e', 'r'] ∧ k ≠ ['I', 'n', 'c', 'l', 'u', 'd', 'e']) :
    process_line inc buf st = .ok (false, st) := by
  by_cases hz : line_len buf = 0
  · unfold process_line
    unfold line_len at hz
    simp only [hz, if_true]
  · rw [process_line_of_no_bracket inc buf st hz hhead]
    unfold directive_step
    split
    next hmem =>
      have hk1 := hk _ (by unfold directive_key; rw [if_pos hmem])
      simp only
      rw [if_neg hk1.1, if_neg hk1.2]
    next => rfl

/-- The loop body with its fall-through from the header branch to the
directive branch does what the else-if form of the specification does, on
every buffer and in every state. -/
theorem process_line_eq_else_if (inc : List Char → shared → Except Fault (Int × shared))
    (buf : List Char) (st : loop_state) :
    process_line inc buf st = process_line_else_if inc buf st := by
  unfold process_line process_line_else_if
  simp only
  generalize strtrim ((cstr buf).takeWhile (fun c => c != '#')) = t
  obtain ⟨line, len⟩ := t
  simp only
  by_cases hz : len = 0
  · rw [if_pos hz, if_pos hz]
  · rw [if_neg hz, if_neg hz]
    by_cases hhead : line.head? = some '['
    · rw [if_pos hhead]
      cases line with
      | nil => simp at hhead
      | cons c0 l =>
        simp only [List.head?_cons, Option.some.injEq] at hhead
        subst hhead
        cases hg : ('[' :: l).get? (len - 1) with
        | none =>
          have : header_step ('[' :: l) len st = .error .line_out_of_bounds := by
            unfold header_step
            rw [if_pos (by rfl), hg]
          rw [this]
        | some c =>
          simp only
          by_cases hc : c = ']'
          · rw [if_pos hc]
            cases hh : header_step ('[' :: l) len st with
            | error f => rfl
            | ok st1 => exact directive_step_of_bracket inc l st1
          · rw [if_neg hc]
            have : header_step ('[' :: l) len st = .ok st := by
              unfold header_step
              rw [if_pos (by rfl), hg]
              simp only
              rw [if_neg hc]
            rw [this]
    · rw [if_neg hhead, header_step_of_head_ne _ _ _ hhead]

/-- C19: a line that passes the header test (`header_name buf = some
name`) has, whatever follows the header on the line and whatever the
Include function does, the header effect alone: the section becomes
`name`, `in_options` is set, and a record is created unless the name is
`options`; no server is appended and the Include function is not called
(the result is the same for every Include function).  The loop body as a
whole equals the else-if form of the specification. -/
theorem header_line_no_directive (inc inc2 : List Char → shared → Except Fault (Int × shared))
    (buf : List Char) (st : loop_state) (name : List Char)
    (h : header_name buf = some name) :
    process_line inc buf st =
      .ok (false,
        if name = ['o', 'p', 't', 'i', 'o', 'n', 's'] then
          { st with sect := some name, in_options := true }
        else
          { st with sect := some name, in_options := false,
                    active_repos := some (st.active_repos.getD [] ++ [repo_new name]) }) ∧
    process_line inc buf st = process_line inc2 buf st ∧
    process_line inc buf st = process_line_else_if inc buf st := by
  refine ⟨process_line_of_header inc buf st name h, ?_, process_line_eq_else_if inc buf st⟩
  rw [process_line_of_header inc buf st name h, process_line_of_header inc2 buf st name h]

/-- Witness for C19: the header `[Include=/etc/x]` read in a state with
the record `core`; the Include function given would fault if called. -/
theorem header_line_no_directive_witness :
    process_line (fun _ _ => .error .out_of_fuel) "[Include=/etc/x]\n".toList
        ⟨some "core".toList, some [repo_new "core".toList], false, 0⟩ =
      .ok (false,
        if "Include=/etc/x".toList = ['o', 'p', 't', 'i', 'o', 'n', 's'] then
          { (⟨some "core".toList, some [repo_new "core".toList], false, 0⟩ : loop_state) with
            sect := some "Include=/etc/x".toList, in_options := true }
        else
          { (⟨some "core".toList, some [repo_new "core".toList], false, 0⟩ : loop_state) with
            sect := some "Include=/etc/x".toList, in_options := false,
            active_repos := some
              ((⟨some "core".toList, some [repo_new "core".toList], false, 0⟩ :
                  loop_state).active_repos.getD [] ++ [repo_new "Include=/etc/x".toList]) }) ∧
    process_line (fun _ _ => .error .out_of_fuel) "[Include=/etc/x]\n".toList
        ⟨some "core".toList, some [repo_new "core".toList], false, 0⟩
      = process_line (fun _ sh => .ok (0, sh)) "[Include=/etc/x]\n".toList
        ⟨some "core".toList, some [repo_new "core".toList], false, 0⟩ ∧
    process_line (fun _ _ => .error .out_of_fuel) "[Include=/etc/x]\n".toList
        ⟨some "core".toList, some [repo_new "core".toList], false, 0⟩
      = process_line_else_if (fun _ _ => .error .out_of_fuel) "[Include=/etc/x]\n".toList
        ⟨some "core".toList, some [repo_new "core".toList], false, 0⟩ :=
  header_line_no_directive _ _ _ _ _ (by decide)

/-- The header `[Server=x]` creates the record `Server=x` and appends no
server. -/
theorem server_header_scenario (fuel : Nat) :
    find_active_repos (mkEnv [("r", "[core]\n[Server=x]\n")] []) (fuel + 1) "r".toList
      = .ok (some [⟨"core".toList, [], 1⟩, ⟨"Server=x".toList, [], 1⟩], 2) :=
  rfl

/-! ## Properties of the returned list -/

/-- The array `find_active_repos` returns is null or non-empty, holds good
records, and has the length left in `*repocount`. -/
theorem find_active_repos_good (env : Env) (fuel : Nat) (root : List Char)
    (p : Option (List repo_t)) (n : Nat)
    (h : find_active_repos env fuel root = .ok (p, n)) :
    good_repos p ∧ n = (p.getD []).length := by
  unfold find_active_repos at h
  split at h
  next => simp at h
  next r sh hres =>
    have hg := parse_one_file_good env fuel root ⟨none, none⟩ sh r ⟨by simp, by simp⟩ hres
    split at h
    · simp only [Except.ok.injEq, Prod.mk.injEq] at h
      rw [← h.1, ← h.2]
      refine ⟨⟨by simp, by simp⟩, ?_⟩
      by_cases hopen1 : ∃ c, env.fopen root = .ok c
      · have := (parse_one_file_repos_ne_nil env fuel root ⟨none, none⟩ sh r (by simp) hres).2
          hopen1
        omega
      · cases he : env.fopen root with
        | ok c => exact absurd ⟨c, he⟩ hopen1
        | error e =>
          rw [parse_one_file_unopenable env fuel root e _ he] at hres
          simp only [Except.ok.injEq, Prod.mk.injEq] at hres
          rw [← hres.2]
          rfl
    · simp only [Except.ok.injEq, Prod.mk.injEq] at h
      rw [← h.1, ← h.2]
      exact ⟨hg, rfl⟩

/-- A trimmed text does not start and does not end with whitespace. -/
theorem trimmed_ends (s : List Char) (h : trimmed s) :
    (∀ c, s.head? = some c → isspace c = false) ∧
    (∀ c, s.getLast? = some c → isspace c = false) := by
  constructor
  · intro c hc
    cases s with
    | nil => simp at hc
    | cons d l =>
      simp only [List.head?_cons, Option.some.injEq] at hc
      subst hc
      by_contra hsp
      have h1 := h.1
      rw [List.dropWhile_cons_of_pos (by simpa using hsp)] at h1
      have h2 := congrArg List.length h1
      have h3 := (List.dropWhile_suffix isspace (l := l)).length_le
      simp at h2
      omega
  · intro c hc
    induction s using List.reverseRecOn with
    | nil => simp at hc
    | append_singleton l d _ =>
      rw [List.getLast?_concat] at hc
      simp only [Option.some.injEq] at hc
      subst hc
      by_contra hsp
      have h1 := h.2
      rw [List.rdropWhile_concat_pos _ _ _ (by simpa using hsp)] at h1
      have h2 := congrArg List.length h1
      have h3 := (List.rdropWhile_prefix isspace l).length_le
      simp at h2
      omega

/-- No record of a returned list is named `options`; a line that passes
the header test of the loop body sets `in_options` and creates no record
when the extracted name is `options`, and creates a record with the
extracted name in every other case, as the headers `[Options]` and
`[options ]` do. -/
theorem no_record_named_options (env : Env) (fuel : Nat) (root : List Char)
    (p : Option (List repo_t)) (n : Nat)
    (h : find_active_repos env fuel root = .ok (p, n)) :
    (∀ r ∈ p.getD [], r.name ≠ ['o', 'p', 't', 'i', 'o', 'n', 's']) ∧
    (∀ (inc : List Char → shared → Except Fault (Int × shared)) buf st,
      header_name buf = some ['o', 'p', 't', 'i', 'o', 'n', 's'] →
      process_line inc buf st =
        .ok (false, { st with sect := some ['o', 'p', 't', 'i', 'o', 'n', 's'],
                              in_options := true })) ∧
    (∀ (inc : List Char → shared → Except Fault (Int × shared)) buf st name,
      header_name buf = some name → name ≠ ['o', 'p', 't', 'i', 'o', 'n', 's'] →
      process_line inc buf st =
        .ok (false, { st with sect := some name, in_options := false,
                              active_repos := some (st.active_repos.getD [] ++ [repo_new name]) })) ∧
    header_name "[Options]\n".toList = some "Options".toList ∧
    header_name "[options ]\n".toList = some "options ".toList ∧
    header_name "[options]\n".toList = some "options".toList := by
  refine ⟨fun r hr => ((find_active_repos_good env fuel root p n h).1.2 r hr).2.1, ?_, ?_,
    by decide, by decide, by decide⟩
  · intro inc buf st hn
    rw [process_line_of_header inc buf st _ hn, if_pos rfl]
  · intro inc buf st name hn hne
    rw [process_line_of_header inc buf st _ hn, if_neg hne]

/-- An instance: a configuration with the headers `[options]`,
`[Options]` and `[options ]`. -/
theorem no_record_named_options_witness :
    (∀ r ∈ (some [(⟨"Options".toList, ["a".toList], 1⟩ : repo_t),
                  ⟨"options ".toList, [], 1⟩]).getD [],
      r.name ≠ ['o', 'p', 't', 'i', 'o', 'n', 's']) ∧
    (∀ (inc : List Char → shared → Except Fault (Int × shared)) buf st,
      header_name buf = some ['o', 'p', 't', 'i', 'o', 'n', 's'] →
      process_line inc buf st =
        .ok (false, { st with sect := some ['o', 'p', 't', 'i', 'o', 'n', 's'],
                              in_options := true })) ∧
    (∀ (inc : List Char → shared → Except Fault (Int × shared)) buf st name,
      header_name buf = some name → name ≠ ['o', 'p', 't', 'i', 'o', 'n', 's'] →
      process_line inc buf st =
        .ok (false, { st with sect := some name, in_options := false,
                              active_repos := some (st.active_repos.getD [] ++ [repo_new name]) })) ∧
    header_name "[Options]\n".toList = some "Options".toList ∧
    header_name "[options ]\n".toList = some "options ".toList ∧
    header_name "[options]\n".toList = some "options".toList :=
  no_record_named_options
    (mkEnv [("r", "[options]\nServer = x\n[Options]\nServer = a\n[options ]\n")] [])
    1 "r".toList _ _ rfl

/-- C20: in every returned list each record name holds no `#`, no newline
and no NUL, and each server holds no `#`, no newline and no NUL and
neither starts nor ends with a whitespace character; a server may be
empty, as the one the line `Server =` stores. -/
theorem stored_strings_clean (env : Env) (fuel : Nat) (root : List Char)
    (p : Option (List repo_t)) (n : Nat)
    (h : find_active_repos env fuel root = .ok (p, n)) :
    (∀ r ∈ p.getD [],
      '#' ∉ r.name ∧ '\n' ∉ r.name ∧ '\x00' ∉ r.name ∧
      ∀ s ∈ r.servers, '#' ∉ s ∧ '\n' ∉ s ∧ '\x00' ∉ s ∧
        (∀ c, s.head? = some c → isspace c = false) ∧
        (∀ c, s.getLast? = some c → isspace c = false)) ∧
    find_active_repos (mkEnv [("r", "[core]\nServer =\n")] []) 1 "r".toList
      = .ok (some [⟨"core".toList, [[]], 1⟩], 1) := by
  refine ⟨?_, rfl⟩
  intro r hr
  obtain ⟨_, _, hname, hservers⟩ := (find_active_repos_good env fuel root p n h).1.2 r hr
  refine ⟨hname.2.1, hname.1, hname.2.2, ?_⟩
  intro s hs
  obtain ⟨hclean, htrim⟩ := hservers s hs
  exact ⟨hclean.2.1, hclean.1, hclean.2.2, trimmed_ends s htrim⟩

/-- Witness for C20: a configuration with comments, padding and an empty
server. -/
theorem stored_strings_clean_witness :
    (∀ r ∈ (some [(⟨"core".toList, ["http://a".toList, []], 1⟩ : repo_t)]).getD [],
      '#' ∉ r.name ∧ '\n' ∉ r.name ∧ '\x00' ∉ r.name ∧
      ∀ s ∈ r.servers, '#' ∉ s ∧ '\n' ∉ s ∧ '\x00' ∉ s ∧
        (∀ c, s.head? = some c → isspace c = false) ∧
        (∀ c, s.getLast? = some c → isspace c = false)) ∧
    find_active_repos (mkEnv [("r", "[core]\nServer =\n")] []) 1 "r".toList
      = .ok (some [⟨"core".toList, [[]], 1⟩], 1) :=
  stored_strings_clean
    (mkEnv [("r", "[core] # main\nServer = http://a # first\nServer = # none\n")] [])
    1 "r".toList _ _ rfl

/-! ## Record names -/

/-- The invariant principle of `parse_one_file` with a buffer property `B`
that only the buffers of the files of the environment need to have. -/
theorem parse_one_file_invariant_env (Q : Option (List Char) → Option (List repo_t) → Prop)
    (B : List Char → Prop) (env : Env)
    (hfgets : ∀ f content, env.fopen f = .ok content →
      ∀ buf ∈ fgets_all 4096 [] content, B buf)
    (hopt : ∀ s rs, Q s rs → Q (some ['o', 'p', 't', 'i', 'o', 'n', 's']) rs)
    (hnew : ∀ buf name s rs, B buf → header_name buf = some name →
      name ≠ ['o', 'p', 't', 'i', 'o', 'n', 's'] → Q s rs →
      Q (some name) (some (rs.getD [] ++ [repo_new name])))
    (hsrv : ∀ buf val s init repo, B buf → directive_val buf = some val → s ≠ none →
      Q s (some (init ++ [repo])) →
      Q s (some (init ++ [{ repo with servers := repo.servers ++ [val] }])))
    (fuel : Nat) (f : List Char) (sh sh1 : shared) (r : Int)
    (hQ : Q sh.sect sh.repos) (h : parse_one_file env fuel f sh = .ok (r, sh1)) :
    Q sh1.sect sh1.repos := by
  induction fuel generalizing f sh sh1 r with
  | zero =>
    unfold parse_one_file at h
    split at h
    next e he =>
      simp only [Except.ok.injEq, Prod.mk.injEq] at h
      rw [← h.2]
      exact hQ
    next => simp at h
  | succ n ih =>
    unfold parse_one_file at h
    split at h
    next e he =>
      simp only [Except.ok.injEq, Prod.mk.injEq] at h
      rw [← h.2]
      exact hQ
    next content hopen =>
      simp only at h
      split at h
      next => simp at h
      next st1 hlines =>
        simp only [Except.ok.injEq, Prod.mk.injEq] at h
        have hinv := parse_lines_invariant Q B _ hopt hnew hsrv
          (fun pat sh2 r2 sh3 hq hres =>
            parse_include_invariant Q env.glob (parse_one_file env n)
              (fun p sh4 r4 sh5 hq4 h4 => ih p sh4 sh5 r4 hq4 h4) pat sh2 sh3 r2 hq hres)
          _ (hfgets f content hopen) _ st1 ⟨hQ, rfl⟩ hlines
        rw [← h.2]
        exact hinv.1

/-- A line that passes the header test of the loop body creates a record
with the extracted name whenever that name is not `options`, also when
the name is empty; the records of a returned list have non-empty names
when the name extracted from a line of the files read is never empty. -/
theorem names_nonempty_of_header_name (env : Env) (fuel : Nat) (root : List Char)
    (p : Option (List repo_t)) (n : Nat)
    (h : find_active_repos env fuel root = .ok (p, n))
    (hhdr : ∀ f content, env.fopen f = .ok content →
      ∀ buf ∈ fgets_all 4096 [] content, header_name buf ≠ some []) :
    (∀ r ∈ p.getD [], r.name ≠ []) ∧
    (∀ (inc : List Char → shared → Except Fault (Int × shared)) buf st name,
      header_name buf = some name → name ≠ ['o', 'p', 't', 'i', 'o', 'n', 's'] →
      process_line inc buf st =
        .ok (false, { st with sect := some name, in_options := false,
                              active_repos := some (st.active_repos.getD [] ++ [repo_new name]) })) := by
  constructor
  · unfold find_active_repos at h
    split at h
    next => simp at h
    next r sh hres =>
      have hinv := parse_one_file_invariant_env
        (fun _ rs => ∀ r ∈ rs.getD [], r.name ≠ []) (fun buf => header_name buf ≠ some [])
        env hhdr (fun _ _ h => h)
        (fun buf name s rs hB hname _ hq r hr => by
          simp only [Option.getD_some, List.mem_append, List.mem_singleton] at hr
          rcases hr with hr | hr
          · exact hq r hr
          · subst hr
            intro hn
            simp only [repo_new] at hn
            exact hB (by rw [hname, hn]))
        (fun buf val s init repo _ _ _ hq r hr => by
          simp only [Option.getD_some, List.mem_append, List.mem_singleton] at hr
          rcases hr with hr | hr
          · exact hq r (by simp [hr])
          · subst hr
            exact hq repo (by simp))
        fuel root ⟨none, none⟩ sh r (by simp) hres
      split at h
      · simp only [Except.ok.injEq, Prod.mk.injEq] at h
        rw [← h.1]
        simp
      · simp only [Except.ok.injEq, Prod.mk.injEq] at h
        rw [← h.1]
        exact hinv
  · intro inc buf st name hn hne
    rw [process_line_of_header inc buf st _ hn, if_neg hne]

/-- An instance: a configuration whose two headers have non-empty
interiors. -/
theorem names_nonempty_of_header_name_instance :
    (∀ r ∈ (some [(⟨"core".toList, ["a".toList], 1⟩ : repo_t), ⟨"x".toList, [], 1⟩]).getD [],
      r.name ≠ []) ∧
    (∀ (inc : List Char → shared → Except Fault (Int × shared)) buf st name,
      header_name buf = some name → name ≠ ['o', 'p', 't', 'i', 'o', 'n', 's'] →
      process_line inc buf st =
        .ok (false, { st with sect := some name, in_options := false,
                              active_repos := some (st.active_repos.getD [] ++ [repo_new name]) })) :=
  names_nonempty_of_header_name (mkEnv [("r", "[core]\nServer = a\n[x]\n")] []) 1 "r".toList _ _ rfl
    (by
      intro f content hopen buf hbuf
      simp only [mkEnv] at hopen
      split at hopen
      next x hx =>
        simp only [Except.ok.injEq] at hopen
        subst hopen
        have hx1 := List.mem_of_find?_eq_some hx
        simp only [List.mem_singleton] at hx1
        subst hx1
        revert buf
        decide
      next => simp at hopen)

/-- C11 as stated fails: the line `[]` passes the header test with an
empty interior, and the parse returns a record with the empty name. -/
theorem empty_header_creates_record :
    header_name "[]\n".toList = some [] ∧
    trimmed_line "[]\n".toList = ['[', ']'] ∧
    find_active_repos (mkEnv [("r", "[]\nServer = a\n")] []) 1 "r".toList
      = .ok (some [⟨[], ["a".toList], 1⟩], 1) :=
  ⟨rfl, rfl, rfl⟩

/-! ## Records change at the tail only -/

theorem tail_extends_refl (l : List repo_t) : tail_extends l l := by
  rcases List.eq_nil_or_concat' l with h | ⟨init, last, h⟩
  · exact Or.inl h
  · exact Or.inr ⟨init, last, [], [], h, by simp [h]⟩

theorem tail_extends_push (old l : List repo_t) (x : repo_t) (h : tail_extends old l) :
    tail_extends old (l ++ [x]) := by
  rcases h with h | ⟨init, last, extra, more, h1, h2⟩
  · exact Or.inl h
  · exact Or.inr ⟨init, last, extra, more ++ [x], h1, by rw [h2]; simp⟩

theorem tail_extends_server (old init : List repo_t) (repo : repo_t) (val : List Char)
    (h : tail_extends old (init ++ [repo])) :
    tail_extends old (init ++ [{ repo with servers := repo.servers ++ [val] }]) := by
  rcases h with h | ⟨i0, last, extra, more, h1, h2⟩
  · exact Or.inl h
  · right
    rcases List.eq_nil_or_concat' more with hm | ⟨m, x, hm⟩
    · subst hm
      simp only [List.append_nil] at h2
      have h3 := List.append_inj' h2 rfl
      obtain ⟨h4, h5⟩ := h3
      simp only [List.cons.injEq, and_true] at h5
      subst h4 h5
      exact ⟨init, last, extra ++ [val], [], h1, by simp⟩
    · subst hm
      rw [← List.append_assoc] at h2
      have h3 := List.append_inj' h2 rfl
      obtain ⟨h4, h5⟩ := h3
      simp only [List.cons.injEq, and_true] at h5
      subst h4 h5
      exact ⟨i0, last, extra, m ++ [{ repo with servers := repo.servers ++ [val] }], h1,
        by simp⟩

/-- What `tail_extends` means entry by entry: every old position still
holds a record with the same name and status flag whose servers start
with the old ones, and every position but the last old one holds the very
same record. -/
theorem tail_extends_get (old new : List repo_t) (h : tail_extends old new)
    (i : Nat) (r : repo_t) (hr : old.get? i = some r) :
    ∃ r1, new.get? i = some r1 ∧ r1.name = r.name ∧ r1.err = r.err ∧
      r.servers <+: r1.servers ∧ (i + 1 < old.length → r1 = r) := by
  rcases h with h | ⟨init, last, extra, more, h1, h2⟩
  · subst h; simp at hr
  · subst h1 h2
    simp only [List.get?_eq_getElem?] at hr ⊢
    by_cases hi : i < init.length
    · rw [List.getElem?_append_left hi] at hr
      refine ⟨r, ?_, rfl, rfl, List.prefix_refl _, fun _ => rfl⟩
      rw [List.append_assoc, List.getElem?_append_left hi]
      exact hr
    · have hlen : i < (init ++ [last]).length := by
        by_contra hge
        rw [List.getElem?_eq_none (by omega)] at hr
        simp at hr
      simp only [List.length_append, List.length_singleton] at hlen
      have hi2 : i = init.length := by omega
      subst hi2
      simp only [List.getElem?_concat_length, Option.some.injEq] at hr
      subst hr
      refine ⟨{ last with servers := last.servers ++ extra }, ?_, rfl, rfl,
        List.prefix_append _ _, fun hlt => ?_⟩
      · rw [List.append_assoc, List.getElem?_append_right (le_refl _)]
        simp
      · simp at hlt

/-- The whole parse of a file changes the records at the tail only. -/
theorem parse_one_file_tail (env : Env) (fuel : Nat) (f : List Char) (sh sh1 : shared)
    (r : Int) (h : parse_one_file env fuel f sh = .ok (r, sh1)) :
    tail_extends (sh.repos.getD []) (sh1.repos.getD []) :=
  (parse_one_file_invariant (fun _ rs => tail_extends (sh.repos.getD []) (rs.getD []))
    (fun _ => True) (fun _ _ _ => trivial) (fun _ _ h => h)
    (fun _ name _ rs _ _ _ hq => by
      simp only [Option.getD_some]
      exact tail_extends_push _ _ _ hq)
    (fun _ val _ init repo _ _ _ hq => by
      simp only [Option.getD_some] at hq ⊢
      exact tail_extends_server _ _ _ val hq)
    env fuel f sh sh1 r (tail_extends_refl _) h).1

/-- C15: a loop iteration of the parser on any buffer, a whole Include
expansion included, changes the records at the tail only: the new list is
the old one with servers appended to its last record (if any), followed
by further records.  Entry by entry, every old position still holds a
record with the same name and status flag whose server list starts with
the old one, and every position before the last old one holds the very
same record. -/
theorem records_change_at_tail (env : Env) (fuel : Nat) (buf : List Char)
    (st st1 : loop_state) (b : Bool)
    (h : process_line (parse_include env.glob (parse_one_file env fuel)) buf st = .ok (b, st1)) :
    tail_extends (st.active_repos.getD []) (st1.active_repos.getD []) ∧
    ∀ i r, (st.active_repos.getD []).get? i = some r →
      ∃ r1, (st1.active_repos.getD []).get? i = some r1 ∧ r1.name = r.name ∧ r1.err = r.err ∧
        r.servers <+: r1.servers ∧ (i + 1 < (st.active_repos.getD []).length → r1 = r) := by
  have ht : tail_extends (st.active_repos.getD []) (st1.active_repos.getD []) := by
    rcases (process_line_cases _ buf st st1 b h).2 with
      h1 | ⟨name, _, _, h1⟩ | ⟨name, _, _, h1⟩ |
      ⟨init, repo, val, _, _, _, _, hr, h1⟩ | ⟨val, r, sh, _, _, hres, h1⟩
    · rw [h1]; exact tail_extends_refl _
    · rw [h1]; exact tail_extends_refl _
    · rw [h1]
      simp only [Option.getD_some]
      exact tail_extends_push _ _ _ (tail_extends_refl _)
    · rw [h1, hr]
      simp only [Option.getD_some]
      exact tail_extends_server _ _ _ val (tail_extends_refl _)
    · rw [h1]
      exact parse_include_invariant
        (fun _ rs => tail_extends (st.active_repos.getD []) (rs.getD [])) env.glob
        (parse_one_file env fuel)
        (fun p sh2 r2 sh3 hq hres2 =>
          (parse_one_file_invariant
            (fun _ rs => tail_extends (st.active_repos.getD []) (rs.getD []))
            (fun _ => True) (fun _ _ _ => trivial) (fun _ _ h => h)
            (fun _ name _ rs _ _ _ hq => by
              simp only [Option.getD_some]
              exact tail_extends_push _ _ _ hq)
            (fun _ val _ init repo _ _ _ hq => by
              simp only [Option.getD_some] at hq ⊢
              exact tail_extends_server _ _ _ val hq)
            env fuel p sh2 sh3 r2 hq hres2).1)
        val ⟨st.sect, st.active_repos⟩ sh r (tail_extends_refl _) hres
  exact ⟨ht, fun i r hr => tail_extends_get _ _ ht i r hr⟩

/-- Witness for C15: an Include line read with the records `a` and `b`;
the included file appends a server to `b` and creates `c`. -/
theorem records_change_at_tail_witness :
    tail_extends
      ((some [(⟨"a".toList, ["1".toList], 1⟩ : repo_t), ⟨"b".toList, ["2".toList], 1⟩]).getD [])
      ((some [(⟨"a".toList, ["1".toList], 1⟩ : repo_t),
              ⟨"b".toList, ["2".toList, "3".toList], 1⟩,
              ⟨"c".toList, ["4".toList], 1⟩]).getD []) ∧
    ∀ i r, ((some [(⟨"a".toList, ["1".toList], 1⟩ : repo_t),
                   ⟨"b".toList, ["2".toList], 1⟩]).getD []).get? i = some r →
      ∃ r1, ((some [(⟨"a".toList, ["1".toList], 1⟩ : repo_t),
              ⟨"b".toList, ["2".toList, "3".toList], 1⟩,
              ⟨"c".toList, ["4".toList], 1⟩]).getD []).get? i = some r1 ∧
        r1.name = r.name ∧ r1.err = r.err ∧ r.servers <+: r1.servers ∧
        (i + 1 < ((some [(⟨"a".toList, ["1".toList], 1⟩ : repo_t),
                         ⟨"b".toList, ["2".toList], 1⟩]).getD []).length → r1 = r) :=
  records_change_at_tail
    (mkEnv [("sub", "Server = 3\n[c]\nServer = 4\n")] []) 1 "Include = sub\n".toList
    ⟨some "b".toList,
     some [⟨"a".toList, ["1".toList], 1⟩, ⟨"b".toList, ["2".toList], 1⟩], false, 0⟩
    ⟨some "c".toList,
     some [⟨"a".toList, ["1".toList], 1⟩, ⟨"b".toList, ["2".toList, "3".toList], 1⟩,
           ⟨"c".toList, ["4".toList], 1⟩], false, 0⟩
    false rfl

/-! ## Splitting a directive at its first `=` -/

theorem dropWhile_append_cons_stop {α : Type} (p : α → Bool) (a : List α) (d : α)
    (b : List α) (hd : ¬ p d = true) :
    List.dropWhile p (a ++ d :: b) = List.dropWhile p a ++ d :: b := by
  induction a with
  | nil => simp [List.dropWhile, hd]
  | cons c a ih =>
    by_cases hc : p c = true
    · rw [List.cons_append, List.dropWhile_cons_of_pos hc, List.dropWhile_cons_of_pos hc, ih]
    · rw [List.cons_append, List.dropWhile_cons_of_neg hc, List.dropWhile_cons_of_neg hc]
      simp

theorem dropWhile_rdropWhile_comm {α : Type} (p : α → Bool) (b : List α) :
    List.dropWhile p (List.rdropWhile p b) = List.rdropWhile p (List.dropWhile p b) := by
  have hb : b = List.takeWhile p b ++ List.dropWhile p b :=
    (List.takeWhile_append_dropWhile p b).symm
  cases hd : List.dropWhile p b with
  | nil =>
    have hall : ∀ x ∈ b, p x = true := List.dropWhile_eq_nil_iff.mp hd
    rw [rdropWhile_all p b hall]
    simp
  | cons c rest =>
    have hc : ¬ p c = true := by
      have := List.head_dropWhile_not p b (by rw [hd]; simp)
      simp only [hd, List.head_cons] at this
      simp [this]
    rw [hd] at hb
    rw [rdropWhile_cons_of_neg p c rest hc]
    conv_lhs => rw [hb]
    rw [rdropWhile_append_cons_of_neg p _ c rest hc,
      dropWhile_append_all p _ _ (fun x hx => List.mem_takeWhile_imp hx),
      List.dropWhile_cons_of_neg hc]

/-- The key and the value of a line whose comment-stripped text is
`a ++ '=' :: b` with no `=` in `a`: the trimmed `a` and the trimmed `b`. -/
theorem directive_key_val (buf a b : List Char)
    (hx : (cstr buf).takeWhile (fun c => c != '#') = a ++ '=' :: b) (ha : '=' ∉ a) :
    directive_key buf = some (strtrim a).1 ∧ directive_val buf = some (strtrim b).1 := by
  have hline : trimmed_line buf
      = List.dropWhile isspace a ++ '=' :: List.rdropWhile isspace b := by
    unfold trimmed_line
    rw [hx, strtrim_fst, dropWhile_append_cons_stop isspace a '=' b (by decide),
      rdropWhile_append_cons_of_neg isspace _ '=' b (by decide)]
  have hmem : '=' ∈ trimmed_line buf := by rw [hline]; simp
  have hne : ∀ c ∈ List.dropWhile isspace a, (c != '=') = true := by
    intro c hc
    simp only [bne_iff_ne, ne_eq]
    rintro rfl
    exact ha ((List.dropWhile_suffix isspace).subset hc)
  constructor
  · unfold directive_key
    rw [if_pos hmem, hline]
    unfold split_keyval
    simp only
    rw [takeWhile_append_cons_of_neg _ _ _ _ hne (by decide), strtrim_fst, strtrim_fst,
      List.dropWhile_idempotent]
  · unfold directive_val
    rw [if_pos hmem, hline]
    unfold split_keyval
    simp only
    rw [dropWhile_append_cons_of_neg _ _ _ _ hne (by decide)]
    simp only [List.drop_succ_cons, List.drop_zero]
    rw [strtrim_fst, strtrim_fst, dropWhile_rdropWhile_comm, List.rdropWhile_idempotent]

/-- C14: when the comment-stripped text of a line is `a ++ '=' :: b` with
no `=` in `a` (the first `=` splits it), the key is `a` and the value is
`b`, each without its leading and trailing whitespace, so later `=`
characters stay in the value.  A line that passes the emptiness check
acts by its key: with key `Server` (current section, `in_options = 0`, a
last record) it appends the value, with key `Include` it hands the value
to `parse_include`, and a line not starting with `[` with any other key
changes nothing; `Server = http://h/?a=b` appends `http://h/?a=b`, and
`server`, `SERVER` and `Servers` are other keys. -/
theorem directive_split_at_first_eq (buf a b : List Char)
    (hx : (cstr buf).takeWhile (fun c => c != '#') = a ++ '=' :: b) (ha : '=' ∉ a) :
    (∃ key val w1 w2 w3 w4 : List Char,
      directive_key buf = some key ∧ directive_val buf = some val ∧
      a = w1 ++ key ++ w2 ∧ b = w3 ++ val ++ w4 ∧
      (∀ c ∈ w1 ++ w2 ++ w3 ++ w4, isspace c = true) ∧ trimmed key ∧ trimmed val) ∧
    (∀ (inc : List Char → shared → Except Fault (Int × shared)) st init repo val,
      line_len buf ≠ 0 → directive_key buf = some ['S', 'e', 'r', 'v', 'e', 'r'] →
      directive_val buf = some val → st.sect ≠ none → st.in_options = false →
      st.active_repos = some (init ++ [repo]) →
      process_line inc buf st = .ok (false, { st with
        active_repos := some (init ++ [{ repo with servers := repo.servers ++ [val] }]),
        r := 0 })) ∧
    (∀ (inc : List Char → shared → Except Fault (Int × shared)) st val,
      line_len buf ≠ 0 → directive_key buf = some ['I', 'n', 'c', 'l', 'u', 'd', 'e'] →
      directive_val buf = some val →
      process_line inc buf st =
        match inc val ⟨st.sect, st.active_repos⟩ with
        | .error f => .error f
        | .ok (_, sh) => .ok (false, { st with sect := sh.sect, active_repos := sh.repos })) ∧
    (∀ (inc : List Char → shared → Except Fault (Int × shared)) st,
      (trimmed_line buf).head? ≠ some '[' →
      (∀ k, directive_key buf = some k →
        k ≠ ['S', 'e', 'r', 'v', 'e', 'r'] ∧ k ≠ ['I', 'n', 'c', 'l', 'u', 'd', 'e']) →
      process_line inc buf st = .ok (false, st)) ∧
    directive_val "Server = http://h/?a=b\n".toList = some "http://h/?a=b".toList ∧
    directive_key "server = x\n".toList = some "server".toList ∧
    directive_key "SERVER = x\n".toList = some "SERVER".toList ∧
    directive_key "Servers = x\n".toList = some "Servers".toList := by
  obtain ⟨hk, hv⟩ := directive_key_val buf a b hx ha
  obtain ⟨w1, w2, hw1, hw2, ha1, hta⟩ := strtrim_buffer a
  obtain ⟨w3, w4, hw3, hw4, hb1, htb⟩ := strtrim_buffer b
  refine ⟨⟨_, _, w1, w2, w3, w4, hk, hv, ha1, hb1, ?_, hta, htb⟩, ?_, ?_, ?_,
    by decide, by decide, by decide, by decide⟩
  · intro c hc
    simp only [List.mem_append] at hc
    rcases hc with ((hc | hc) | hc) | hc
    · exact hw1 c hc
    · exact hw2 c hc
    · exact hw3 c hc
    · exact hw4 c hc
  · intro inc st init repo val hz hkey hval hs ho hr
    exact process_line_server_key inc buf val st init repo hz hkey hval hs ho hr
  · intro inc st val hz hkey hval
    exact process_line_include_key inc buf val st hz hkey hval
  · intro inc st hhead hother
    exact process_line_other_key inc buf st hhead hother

/-- Witness for C14: the line `Server = http://h/?a=b`, split at its first
`=`. -/
theorem directive_split_at_first_eq_witness :
    process_line (fun _ sh => .ok (0, sh)) "Server = http://h/?a=b\n".toList
        ⟨some "core".toList, some ([] ++ [repo_new "core".toList]), false, 0⟩
      = .ok (false, { (⟨some "core".toList, some ([] ++ [repo_new "core".toList]), false, 0⟩ :
            loop_state) with
          active_repos := some ([] ++ [{ repo_new "core".toList with
            servers := (repo_new "core".toList).servers ++ ["http://h/?a=b".toList] }]),
          r := 0 }) :=
  (directive_split_at_first_eq "Server = http://h/?a=b\n".toList "Server ".toList
    " http://h/?a=b\n".toList rfl (by decide)).2.1 _ _ _ _ _ (by decide) (by decide)
    (by decide) (by simp) rfl rfl

/-! ## A line that is no header taken for one -/

/-- C16: the line ` [ab]c` (one leading blank) is no section header, its
trimmed text `[ab]c` ends in `c`, and it holds no `=`; `strtrim` returns 4
instead of 5, `line[len - 1]` is `]`, and the loop body takes it for the
header `[ab]`: in every state the section becomes `ab` and a record `ab`
is created. -/
theorem non_header_taken_for_header (inc : List Char → shared → Except Fault (Int × shared))
    (st : loop_state) (fuel : Nat) :
    trimmed_line " [ab]c\n".toList = "[ab]c".toList ∧
    (trimmed_line " [ab]c\n".toList).getLast? = some 'c' ∧
    directive_key " [ab]c\n".toList = none ∧
    line_len " [ab]c\n".toList = 4 ∧
    process_line inc " [ab]c\n".toList st
      = .ok (false, { st with sect := some "ab".toList, in_options := false,
                              active_repos := some (st.active_repos.getD [] ++ [repo_new "ab".toList]) }) ∧
    find_active_repos (mkEnv [("r", " [ab]c\n")] []) (fuel + 1) "r".toList
      = .ok (some [⟨"ab".toList, [], 1⟩], 1) :=
  ⟨rfl, rfl, rfl, rfl, rfl, rfl⟩

/-- Unknown keys are ignored on lines without leading whitespace, in every
state. -/
theorem unknown_keys_scenario (inc : List Char → shared → Except Fault (Int × shared))
    (st : loop_state) :
    process_line inc "server = x\n".toList st = .ok (false, st) ∧
    process_line inc "SERVER = x\n".toList st = .ok (false, st) ∧
    process_line inc "Servers = x\n".toList st = .ok (false, st) ∧
    process_line inc "SomeKey = ignored\n".toList st = .ok (false, st) ∧
    process_line inc "Color\n".toList st = .ok (false, st) :=
  ⟨rfl, rfl, rfl, rfl, rfl⟩

/-! ## Include cycles -/

/-- The loop of `parse_include` does not return when the call on one of
its paths never returns. -/
theorem parse_include_loop_stuck (pf : List Char → shared → Except Fault (Int × shared))
    (paths : List (List Char)) (g : List Char) (hg : g ∈ paths)
    (hpf : ∀ sh res, pf g sh ≠ .ok res) (sh : shared) (res : shared) :
    parse_include_loop pf paths sh ≠ .ok res := by
  induction paths generalizing sh with
  | nil => simp at hg
  | cons q qs ih =>
    unfold parse_include_loop
    split
    next => simp
    next r sh1 hq =>
      simp only [List.mem_cons] at hg
      rcases hg with hg | hg
      · subst hg
        exact absurd hq (hpf sh _)
      · exact ih hg sh1

/-- The line loop does not return when one of its lines never returns. -/
theorem parse_lines_stuck (inc : List Char → shared → Except Fault (Int × shared))
    (lines : List (List Char)) (buf : List Char) (hbuf : buf ∈ lines)
    (hstuck : ∀ st res, process_line inc buf st ≠ .ok res) (st : loop_state)
    (res : loop_state) : parse_lines inc lines st ≠ .ok res := by
  induction lines generalizing st with
  | nil => simp at hbuf
  | cons l rest ih =>
    unfold parse_lines
    split
    next => simp
    next st1 hl =>
      have := (process_line_cases inc l st st1 true hl).1
      simp at this
    next st1 hl =>
      simp only [List.mem_cons] at hbuf
      rcases hbuf with hb | hb
      · subst hb
        exact absurd hl (hstuck st _)
      · exact ih hb st1

/-- When the files of `C` lie on include cycles (each opens and holds an
Include line that passes the emptiness check and whose expansion names a
file of `C`, itself or another), the parse of a file of `C` returns at no
recursion depth: for every fuel the run ends in a fault, never in a
result. -/
theorem include_cycle_never_returns (env : Env) (C : List Char → Prop)
    (hC : include_cycle env C) (fuel : Nat) (f : List Char) (hf : C f) (sh : shared)
    (res : Int × shared) : parse_one_file env fuel f sh ≠ .ok res := by
  induction fuel generalizing f sh res with
  | zero =>
    obtain ⟨content, hopen, _⟩ := hC f hf
    simp [parse_one_file, hopen]
  | succ n ih =>
    obtain ⟨content, hopen, buf, hbuf, hz, hk, val, paths, hv, hg, g, hgp, hgc⟩ := hC f hf
    have hstuck : ∀ st res, process_line (parse_include env.glob (parse_one_file env n)) buf st
        ≠ .ok res := by
      intro st res1
      rw [process_line_include_key _ buf val st hz hk hv]
      have hinc : ∀ sh1 res2, parse_include env.glob (parse_one_file env n) val sh1 ≠ .ok res2 := by
        intro sh1 res2
        unfold parse_include
        rw [hg]
        simp only
        split
        next => simp
        next sh2 hloop =>
          exact absurd hloop
            (parse_include_loop_stuck _ paths g hgp (fun sh3 res3 => ih g hgc sh3 res3) sh1 sh2)
      split
      next => simp
      next r sh1 hres => exact absurd hres (hinc _ _)
    unfold parse_one_file
    simp only [hopen]
    split
    next => simp
    next st1 hl => exact absurd hl (parse_lines_stuck _ _ buf hbuf hstuck _ st1)

/-- An instance: a file that includes itself. -/
theorem include_cycle_never_returns_witness :
    parse_one_file (mkEnv [("r", "[a]\nInclude = r\n")] []) 7 "r".toList ⟨none, none⟩
      ≠ .ok (0, ⟨some "a".toList, some [repo_new "a".toList]⟩) :=
  include_cycle_never_returns (mkEnv [("r", "[a]\nInclude = r\n")] [])
    (fun f => f = "r".toList)
    (by
      intro f hf
      subst hf
      exact ⟨"[a]\nInclude = r\n".toList, rfl, "Include = r\n".toList, by decide, by decide,
        by decide, "r".toList, ["r".toList], by decide, rfl, "r".toList, by simp, rfl⟩)
    7 "r".toList rfl _ _

/-- The self-including file runs out of every fuel. -/
theorem self_include_scenario :
    parse_one_file (mkEnv [("r", "[a]\nInclude = r\n")] []) 0 "r".toList ⟨none, none⟩
      = .error .out_of_fuel ∧
    parse_one_file (mkEnv [("r", "[a]\nInclude = r\n")] []) 5 "r".toList ⟨none, none⟩
      = .error .out_of_fuel ∧
    find_active_repos (mkEnv [("r", "Include = s\n"), ("s", "Include = r\n")] []) 9 "r".toList
      = .error .out_of_fuel :=
  ⟨rfl, rfl, rfl⟩

/-! ## Lines that are not indented -/

/-- Every buffer `fgets` delivers is shorter than the buffer size. -/
theorem fgets_all_length (size : Nat) (content cur : List Char) (hcur : cur.length + 1 < size) :
    ∀ buf ∈ fgets_all size cur content, buf.length < size := by
  induction content generalizing cur with
  | nil =>
    intro buf hbuf
    unfold fgets_all at hbuf
    split at hbuf
    · simp at hbuf
    · simp only [List.mem_singleton] at hbuf
      subst hbuf
      omega
  | cons c rest ih =>
    intro buf hbuf
    unfold fgets_all at hbuf
    split at hbuf
    · simp only [List.mem_cons] at hbuf
      rcases hbuf with hbuf | hbuf
      · subst hbuf
        simp only [List.length_append, List.length_singleton]
        omega
      · exact ih [] (by simp only [List.length_nil]; omega) buf hbuf
    next hc =>
      refine ih (cur ++ [c]) ?_ buf hbuf
      simp only [List.length_append, List.length_singleton]
      simp only [not_or, ge_iff_le, not_le] at hc
      omega

/-- On a line that is not indented the value `strtrim` returns is the
length of the trimmed text. -/
theorem line_len_of_not_indented (buf : List Char) (hni : not_indented buf = true)
    (hlen : buf.length < 18446744073709551616) :
    line_len buf = (trimmed_line buf).length := by
  have hx : ((cstr buf).takeWhile (fun c => c != '#')).length ≤ buf.length := by
    have h1 := (List.takeWhile_prefix (fun c => c != '#') (l := cstr buf)).length_le
    have h2 : (cstr buf).length ≤ buf.length :=
      (List.takeWhile_prefix (fun c => c != '\x00') (l := buf)).length_le
    omega
  unfold line_len trimmed_line
  rw [strtrim_snd, strtrim_fst]
  split
  next hd => rw [hd]; simp
  next hd =>
    unfold not_indented at hni
    simp only [Bool.or_eq_true, List.isEmpty_iff] at hni
    rcases hni with hni | hni
    · exact absurd hni hd
    · rw [hni]
      simp only [List.length_nil]
      have h3 := (List.rdropWhile_prefix isspace
        (((cstr buf).takeWhile (fun c => c != '#')).dropWhile isspace)).length_le
      have h4 := (List.dropWhile_suffix isspace
        (l := (cstr buf).takeWhile (fun c => c != '#'))).length_le
      exact size_t_of_length _ (by omega)

/-- The header test with the right length is the header of the
specification. -/
theorem header_test_of_length (line : List Char) :
    (if line.length ≠ 0 ∧ line.head? = some '[' ∧ line.get? (line.length - 1) = some ']' then
        some ((line.drop 1).take (line.length - 2))
      else none) =
    (if line.head? = some '[' ∧ line.getLast? = some ']' then some (line.drop 1).dropLast
      else none) := by
  rw [List.get?_eq_getElem?, ← List.getLast?_eq_getElem?]
  have htake : (line.drop 1).take (line.length - 2) = (line.drop 1).dropLast := by
    rw [List.dropLast_eq_take, List.length_drop]
    rfl
  rw [htake]
  by_cases h : line.head? = some '[' ∧ line.getLast? = some ']'
  · have hne : line.length ≠ 0 := by
      intro h0
      rw [List.length_eq_zero.mp h0] at h
      simp at h
    rw [if_pos ⟨hne, h⟩, if_pos h]
  · rw [if_neg h, if_neg (fun hh => h hh.2)]

/-- On a line that is not indented the header test of the loop body is the
header of the specification: the line is taken for a header exactly when
its trimmed text starts with `[` and ends with `]`, and the name extracted
is the text between the brackets. -/
theorem header_name_of_not_indented (buf : List Char) (hni : not_indented buf = true)
    (hlen : buf.length < 18446744073709551616) :
    header_name buf = section_header buf := by
  have hl := line_len_of_not_indented buf hni hlen
  unfold line_len trimmed_line at hl
  unfold header_name section_header trimmed_line
  simp only [hl]
  exact header_test_of_length _

/-- C11, as amended: on a line that is not indented (blank, or starting
with a character that is no whitespace) a section header, a trimmed text
that starts with `[` and ends with `]`, creates a record named by the
text between the brackets whenever that text is not `options`, also when
it is empty, as for `[]`; in a configuration whose lines are not indented
every record of the returned list has a non-empty name provided no line
is a section header with an empty interior. -/
theorem record_names_nonempty (env : Env) (fuel : Nat) (root : List Char)
    (p : Option (List repo_t)) (n : Nat)
    (h : find_active_repos env fuel root = .ok (p, n))
    (hlines : ∀ f content, env.fopen f = .ok content →
      ∀ buf ∈ fgets_all 4096 [] content,
        not_indented buf = true ∧ section_header buf ≠ some []) :
    (∀ r ∈ p.getD [], r.name ≠ []) ∧
    (∀ (inc : List Char → shared → Except Fault (Int × shared)) buf st name,
      not_indented buf = true → buf.length < 4096 → section_header buf = some name →
      name ≠ ['o', 'p', 't', 'i', 'o', 'n', 's'] →
      process_line inc buf st =
        .ok (false, { st with sect := some name, in_options := false,
                              active_repos := some (st.active_repos.getD [] ++ [repo_new name]) })) ∧
    section_header "[]\n".toList = some [] ∧ not_indented "[]\n".toList = true := by
  refine ⟨?_, ?_, by decide, by decide⟩
  · refine (names_nonempty_of_header_name env fuel root p n h ?_).1
    intro f content hopen buf hbuf
    obtain ⟨hni, hsec⟩ := hlines f content hopen buf hbuf
    have hlen := fgets_all_length 4096 content [] (by decide) buf hbuf
    rw [header_name_of_not_indented buf hni (by omega)]
    exact hsec
  · intro inc buf st name hni hlen hsec hne
    have hn : header_name buf = some name := by
      rw [header_name_of_not_indented buf hni (by omega)]
      exact hsec
    rw [process_line_of_header inc buf st _ hn, if_neg hne]

/-- Witness for C11: a configuration without indented lines whose two
headers have non-empty interiors. -/
theorem record_names_nonempty_witness :
    (∀ r ∈ (some [(⟨"core".toList, ["a".toList], 1⟩ : repo_t), ⟨"x".toList, [], 1⟩]).getD [],
      r.name ≠ []) ∧
    (∀ (inc : List Char → shared → Except Fault (Int × shared)) buf st name,
      not_indented buf = true → buf.length < 4096 → section_header buf = some name →
      name ≠ ['o', 'p', 't', 'i', 'o', 'n', 's'] →
      process_line inc buf st =
        .ok (false, { st with sect := some name, in_options := false,
                              active_repos := some (st.active_repos.getD [] ++ [repo_new name]) })) ∧
    section_header "[]\n".toList = some [] ∧ not_indented "[]\n".toList = true :=
  record_names_nonempty (mkEnv [("r", "# mirrors\n[core]\nServer = a\n\n[x]\n")] []) 1
    "r".toList _ _ rfl
    (by
      intro f content hopen buf hbuf
      simp only [mkEnv] at hopen
      split at hopen
      next x hx =>
        simp only [Except.ok.injEq] at hopen
        subst hopen
        have hx1 := List.mem_of_find?_eq_some hx
        simp only [List.mem_singleton] at hx1
        subst hx1
        revert buf
        decide
      next => simp at hopen)

/-! ## Indented lines -/

/-- C9: in the root file ` [ab]c`, `Server = x` no section header comes
before the Server line (the trimmed text `[ab]c` of the first line does
not end in `]`), yet `strtrim` returns 4 for the first line,
`line[len - 1]` is `]`, the loop body takes it for the header `[ab]`, and
the Server line is accepted: the parse returns `ab` with the server
`x`. -/
theorem server_after_mistaken_header (fuel : Nat) :
    trimmed_line " [ab]c\n".toList = "[ab]c".toList ∧
    section_header " [ab]c\n".toList = none ∧
    section_header "Server = x\n".toList = none ∧
    directive_key "Server = x\n".toList = some "Server".toList ∧
    find_active_repos (mkEnv [("r", " [ab]c\nServer = x\n")] []) (fuel + 1) "r".toList
      = .ok (some [⟨"ab".toList, ["x".toList], 1⟩], 1) :=
  ⟨rfl, rfl, rfl, rfl, rfl⟩

/-- C12: the line ` [options]` (one leading blank) is a section header
whose name is `options`, and ` [extra]` is a section header with another
name; `strtrim` returns 8 and 6 for them, the header test fails, the
first sets no flag, so that the Server line after it is appended to
`core`, and the second creates no record. -/
theorem indented_options_header_missed (fuel : Nat) :
    section_header " [options]\n".toList = some "options".toList ∧
    line_len " [options]\n".toList = 8 ∧
    header_name " [options]\n".toList = none ∧
    find_active_repos (mkEnv [("r", "[core]\n [options]\nServer = x\n")] []) (fuel + 1)
        "r".toList
      = .ok (some [⟨"core".toList, ["x".toList], 1⟩], 1) ∧
    section_header " [extra]\n".toList = some "extra".toList ∧
    line_len " [extra]\n".toList = 6 ∧
    header_name " [extra]\n".toList = none ∧
    find_active_repos (mkEnv [("r", " [extra]\n")] []) (fuel + 1) "r".toList
      = .ok (none, 0) :=
  ⟨rfl, rfl, rfl, rfl, rfl, rfl, rfl, rfl⟩

/-- C17: the file `r` holds the line `         Include=r` (nine leading
blanks), an Include directive that expands to the path of `r` itself;
`strtrim` returns 0 for it, the line is skipped at the emptiness check,
and the parse of `r` returns at the first level with the record `a`. -/
theorem indented_self_include_returns (fuel : Nat) :
    directive_key "         Include=r\n".toList = some "Include".toList ∧
    directive_val "         Include=r\n".toList = some "r".toList ∧
    (mkEnv [("r", "[a]\n         Include=r\n")] []).glob "r".toList = some ["r".toList] ∧
    line_len "         Include=r\n".toList = 0 ∧
    parse_one_file (mkEnv [("r", "[a]\n         Include=r\n")] []) (fuel + 1) "r".toList
        ⟨none, none⟩
      = .ok (0, ⟨some "a".toList, some [repo_new "a".toList]⟩) ∧
    find_active_repos (mkEnv [("r", "[a]\n         Include=r\n")] []) (fuel + 1) "r".toList
      = .ok (some [⟨"a".toList, [], 1⟩], 1) :=
  ⟨rfl, rfl, rfl, rfl, rfl, rfl⟩

end Pkgfile
